import Mathlib

/-!
Verification development for the rojo live-sync core.

The repository fragment under verification consists of the snapshot-middleware
trait (`src/snapshot_middleware/middleware.rs`) and the server crate manifest
(`server/src/lib.rs`).  The components those modules refer to — the
`RbxSnapshot` diff/patch algorithms, `PathMap`, and the `Imfs` virtual
filesystem — are declared by the manifest but their sources are not part of
the fragment, so they are modelled here from the specification's contract for
them (each such definition carries a doc comment starting with
`Modelled from the spec:`).
-/

/-- An instance identifier in the live tree.  `RbxId` is opaque and
process-unique in the source; it is modelled as `Nat`. -/
abbrev RbxId := Nat

/-- Modelled from the spec: `InstanceSnapshot` (module `snapshot`, not part of
the visible fragment) — an owned subtree node with class name, name,
properties (a mapping from property name to value, modelled as an ordered
association list with string values), and an ordered sequence of child
snapshots.  It carries no identifier of its own. -/
inductive InstanceSnapshot where
  | mk (className : String) (name : String)
       (properties : List (String × String))
       (children : List InstanceSnapshot)

/-- Modelled from the spec: a node of the live `RbxTree` (crate
`rbx_dom_weak`, not part of the visible fragment).  The spec describes the
live tree as a mapping from `RbxId` to instance nodes whose child ids all
exist and never form a cycle; under that invariant the mapping is represented
directly as a tree of id-annotated nodes. -/
inductive RbxNode where
  | mk (id : RbxId) (className : String) (name : String)
       (properties : List (String × String))
       (children : List RbxNode)

/-- Modelled from the spec: the live tree — an optional root node (the patch
operations may remove the root) together with the next fresh identifier used
when instantiating added snapshots. -/
structure RbxTree where
  root : Option RbxNode
  nextId : Nat

/-- Structural-recursion principle for `InstanceSnapshot` (the automatically
generated recursor for the nested inductive is awkward to use directly). -/
def InstanceSnapshot.indOn {motive : InstanceSnapshot → Prop}
    (h : ∀ c n ps ch, (∀ x, x ∈ ch → motive x) → motive (.mk c n ps ch)) :
    ∀ s, motive s
  | .mk c n ps ch => h c n ps ch (fun x hx => InstanceSnapshot.indOn h x)
termination_by s => sizeOf s
decreasing_by
  simp_wf
  have h2 := List.sizeOf_lt_of_mem hx
  omega

/-- Structural-recursion principle for `RbxNode`. -/
def RbxNode.indOn {motive : RbxNode → Prop}
    (h : ∀ i c n ps ch, (∀ x, x ∈ ch → motive x) → motive (.mk i c n ps ch)) :
    ∀ r, motive r
  | .mk i c n ps ch => h i c n ps ch (fun x hx => RbxNode.indOn h x)
termination_by r => sizeOf r
decreasing_by
  simp_wf
  have h2 := List.sizeOf_lt_of_mem hx
  omega

mutual
def snapBeq : InstanceSnapshot → InstanceSnapshot → Bool
  | .mk c n ps ch, .mk c' n' ps' ch' =>
    c == c' && n == n' && ps == ps' && snapListBeq ch ch'

def snapListBeq : List InstanceSnapshot → List InstanceSnapshot → Bool
  | [], [] => true
  | x :: xs, y :: ys => snapBeq x y && snapListBeq xs ys
  | _, _ => false
end

mutual
def nodeBeq : RbxNode → RbxNode → Bool
  | .mk i c n ps ch, .mk i' c' n' ps' ch' =>
    i == i' && c == c' && n == n' && ps == ps' && nodeListBeq ch ch'

def nodeListBeq : List RbxNode → List RbxNode → Bool
  | [], [] => true
  | x :: xs, y :: ys => nodeBeq x y && nodeListBeq xs ys
  | _, _ => false
end

theorem snapBeq_refl : ∀ s, snapBeq s s = true := by
  intro s
  induction s using InstanceSnapshot.indOn with
  | h c n ps ch ih =>
    have hl : snapListBeq ch ch = true := by
      induction ch with
      | nil => simp [snapListBeq]
      | cons x xs ihl =>
        simp only [snapListBeq, Bool.and_eq_true]
        exact ⟨ih x (by simp), ihl (fun y hy => ih y (by simp [hy]))⟩
    simp [snapBeq, hl]

theorem snapBeq_eq : ∀ s t, snapBeq s t = true → s = t := by
  intro s
  induction s using InstanceSnapshot.indOn with
  | h c n ps ch ih =>
    intro t
    cases t with
    | mk c' n' ps' ch' =>
      simp only [snapBeq, Bool.and_eq_true, beq_iff_eq, and_imp]
      intro hc hn hps hch
      subst hc; subst hn; subst hps
      have : ch = ch' := by
        induction ch generalizing ch' with
        | nil => cases ch' with
          | nil => rfl
          | cons y ys => simp [snapListBeq] at hch
        | cons x xs ihl =>
          cases ch' with
          | nil => simp [snapListBeq] at hch
          | cons y ys =>
            simp only [snapListBeq, Bool.and_eq_true] at hch
            have h1 := ih x (by simp) y hch.1
            have h2 := ihl (fun z hz => ih z (by simp [hz])) ys hch.2
            rw [h1, h2]
      rw [this]

theorem nodeBeq_refl : ∀ r, nodeBeq r r = true := by
  intro r
  induction r using RbxNode.indOn with
  | h i c n ps ch ih =>
    have hl : nodeListBeq ch ch = true := by
      induction ch with
      | nil => simp [nodeListBeq]
      | cons x xs ihl =>
        simp only [nodeListBeq, Bool.and_eq_true]
        exact ⟨ih x (by simp), ihl (fun y hy => ih y (by simp [hy]))⟩
    simp [nodeBeq, hl]

theorem nodeBeq_eq : ∀ r t, nodeBeq r t = true → r = t := by
  intro r
  induction r using RbxNode.indOn with
  | h i c n ps ch ih =>
    intro t
    cases t with
    | mk i' c' n' ps' ch' =>
      simp only [nodeBeq, Bool.and_eq_true, beq_iff_eq, and_imp]
      intro hi hc hn hps hch
      subst hi; subst hc; subst hn; subst hps
      have : ch = ch' := by
        induction ch generalizing ch' with
        | nil => cases ch' with
          | nil => rfl
          | cons y ys => simp [nodeListBeq] at hch
        | cons x xs ihl =>
          cases ch' with
          | nil => simp [nodeListBeq] at hch
          | cons y ys =>
            simp only [nodeListBeq, Bool.and_eq_true] at hch
            have h1 := ih x (by simp) y hch.1
            have h2 := ihl (fun z hz => ih z (by simp [hz])) ys hch.2
            rw [h1, h2]
      rw [this]

instance : DecidableEq InstanceSnapshot := fun s t =>
  if h : snapBeq s t = true then isTrue (snapBeq_eq s t h)
  else isFalse (fun he => h (he ▸ snapBeq_refl s))

instance : DecidableEq RbxNode := fun r t =>
  if h : nodeBeq r t = true then isTrue (nodeBeq_eq r t h)
  else isFalse (fun he => h (he ▸ nodeBeq_refl r))

instance : DecidableEq RbxTree := fun a b =>
  decidable_of_iff (a.root = b.root ∧ a.nextId = b.nextId) (by cases a; cases b; simp)

def RbxNode.nodeId : RbxNode → RbxId
  | .mk i _ _ _ _ => i

def RbxNode.cls : RbxNode → String
  | .mk _ c _ _ _ => c

def RbxNode.name : RbxNode → String
  | .mk _ _ n _ _ => n

def RbxNode.props : RbxNode → List (String × String)
  | .mk _ _ _ ps _ => ps

def RbxNode.children : RbxNode → List RbxNode
  | .mk _ _ _ _ ch => ch

def InstanceSnapshot.className : InstanceSnapshot → String
  | .mk c _ _ _ => c

def InstanceSnapshot.name : InstanceSnapshot → String
  | .mk _ n _ _ => n

def InstanceSnapshot.properties : InstanceSnapshot → List (String × String)
  | .mk _ _ ps _ => ps

def InstanceSnapshot.children : InstanceSnapshot → List InstanceSnapshot
  | .mk _ _ _ ch => ch

mutual
/-- Forget the identifiers of a live subtree, producing the snapshot it
currently denotes (the "structural" view used to compare trees). -/
def stripNode : RbxNode → InstanceSnapshot
  | .mk _ c n ps ch => .mk c n ps (stripList ch)

def stripList : List RbxNode → List InstanceSnapshot
  | [] => []
  | x :: xs => stripNode x :: stripList xs
end

mutual
/-- All identifiers occurring in a live subtree, root first. -/
def nodeIds : RbxNode → List RbxId
  | .mk i _ _ _ ch => i :: nodeIdsList ch

def nodeIdsList : List RbxNode → List RbxId
  | [] => []
  | x :: xs => nodeIds x ++ nodeIdsList xs
end

mutual
/-- Modelled from the spec: instantiating an added snapshot into the live
tree assigns fresh identifiers ("identity is assigned only when merged into a
live tree"); identifiers are drawn consecutively from a counter. -/
def reifyNode (k : Nat) : InstanceSnapshot → RbxNode × Nat
  | .mk c n ps ch =>
    let r := reifyList (k + 1) ch
    (RbxNode.mk k c n ps r.1, r.2)

def reifyList (k : Nat) : List InstanceSnapshot → List RbxNode × Nat
  | [] => ([], k)
  | s :: ss =>
    let a := reifyNode k s
    let b := reifyList a.2 ss
    (a.1 :: b.1, b.2)
end

/-- Modelled from the spec: one operation of a `Patch` (module `rbx_snapshot`,
not part of the visible fragment): `Add(parent id, snapshot)`,
`Update(id, property changes)` — carrying the target class name and the full
target property list, since an update is emitted exactly when the class name
or a property differs — and `Remove(id)`. -/
inductive PatchOp where
  | add (parentId : RbxId) (snapshot : InstanceSnapshot)
  | update (id : RbxId) (className : String) (properties : List (String × String))
  | remove (id : RbxId)
deriving DecidableEq

/-- The tree identifier an operation references; the spec's atomicity check
("fails the whole patch if any referenced id is missing") is over these. -/
def PatchOp.refId : PatchOp → RbxId
  | .add pid _ => pid
  | .update id _ _ => id
  | .remove id => id

/-- The ids targeted by the `Remove` operations of a patch. -/
def removesOf (p : List PatchOp) : List RbxId :=
  p.filterMap fun op => match op with
    | .remove id => some id
    | _ => none

/-- The `Update` operations of a patch, as (id, class name, properties). -/
def updatesOf (p : List PatchOp) : List (RbxId × String × List (String × String)) :=
  p.filterMap fun op => match op with
    | .update id c ps => some (id, c, ps)
    | _ => none

/-- The `Add` operations of a patch, as (parent id, snapshot). -/
def addsOf (p : List PatchOp) : List (RbxId × InstanceSnapshot) :=
  p.filterMap fun op => match op with
    | .add pid s => some (pid, s)
    | _ => none

mutual
/-- Modelled from the spec: the recursive case of `diff` when both sides are
present.  The old side is the corresponding live subtree (the session "diffs
each [new snapshot] against the corresponding live subtree", which is where
the emitted ids come from); class name and properties are compared (an
`Update` is emitted if any differ), then children are diffed pairwise by
index position, a length mismatch producing trailing `Add`/`Remove`
operations for the extra children. -/
def diffSome (old : RbxNode) (new : InstanceSnapshot) : List PatchOp :=
  match old, new with
  | .mk i c _ ps ch, .mk c' _ ps' ch' =>
    (if c ≠ c' ∨ ps ≠ ps' then [PatchOp.update i c' ps'] else []) ++ diffKids i ch ch'

/-- Modelled from the spec: positional diffing of child lists — children are
matched pairwise by index, not by similarity; extra new children become
trailing `Add`s under the parent, extra old children trailing `Remove`s. -/
def diffKids (parentId : RbxId) :
    List RbxNode → List InstanceSnapshot → List PatchOp
  | [], ns => ns.map (PatchOp.add parentId)
  | o :: os, [] => (o :: os).map (fun x => PatchOp.remove x.nodeId)
  | o :: os, n :: ns => diffSome o n ++ diffKids parentId os ns
end

/-- Modelled from the spec:
`diff(old: Option<InstanceSnapshot>, new: Option<InstanceSnapshot>) -> Patch`
(module `rbx_snapshot`, not part of the visible fragment).  Both `None` gives
the empty patch; `old = None, new = Some` a single `Add` under the given
parent; `old = Some, new = None` a single `Remove`; both present defers to
`diffSome`.  The old side is the live subtree the session diffs against. -/
def diff (parentId : RbxId) :
    Option RbxNode → Option InstanceSnapshot → List PatchOp
  | none, none => []
  | none, some n => [PatchOp.add parentId n]
  | some o, none => [PatchOp.remove o.nodeId]
  | some o, some n => diffSome o n

mutual
/-- Modelled from the spec: `Remove(id)` deletes the instance with that id
(and with it its whole subtree) from the live tree. -/
def removeNode (id : RbxId) : RbxNode → Option RbxNode
  | .mk i c n ps ch => if i = id then none else some (.mk i c n ps (removeList id ch))

def removeList (id : RbxId) : List RbxNode → List RbxNode
  | [] => []
  | x :: xs =>
    match removeNode id x with
    | none => removeList id xs
    | some y => y :: removeList id xs
end

mutual
/-- Modelled from the spec: `Update(id, changes)` replaces the class name and
properties of the instance with that id; names and children are untouched. -/
def updateNode (id : RbxId) (c' : String) (ps' : List (String × String)) :
    RbxNode → RbxNode
  | .mk i c n ps ch =>
    .mk i (if i = id then c' else c) n (if i = id then ps' else ps)
      (updateList id c' ps' ch)

def updateList (id : RbxId) (c' : String) (ps' : List (String × String)) :
    List RbxNode → List RbxNode
  | [] => []
  | x :: xs => updateNode id c' ps' x :: updateList id c' ps' xs
end

mutual
/-- Modelled from the spec: `Add(parent id, snapshot)` appends an already
instantiated node at the end of the children of the instance with the parent
id. -/
def addNode (pid : RbxId) (child : RbxNode) : RbxNode → RbxNode
  | .mk i c n ps ch =>
    .mk i c n ps (addList pid child ch ++ if i = pid then [child] else [])

def addList (pid : RbxId) (child : RbxNode) : List RbxNode → List RbxNode
  | [] => []
  | x :: xs => addNode pid child x :: addList pid child xs
end

/-- Apply the `Remove` operations of a patch, in patch order. -/
def remFold (rs : List RbxId) (x : Option RbxNode) : Option RbxNode :=
  rs.foldl (fun acc id => acc.bind (removeNode id)) x

/-- Apply the `Update` operations of a patch, in patch order. -/
def updFold (us : List (RbxId × String × List (String × String)))
    (x : Option RbxNode) : Option RbxNode :=
  us.foldl (fun acc u => acc.map (updateNode u.1 u.2.1 u.2.2)) x

/-- Apply the `Add` operations of a patch, in patch order, drawing fresh ids
from the counter for each instantiated snapshot. -/
def addFold (as' : List (RbxId × InstanceSnapshot))
    (x : Option RbxNode × Nat) : Option RbxNode × Nat :=
  as'.foldl
    (fun acc a =>
      let rn := reifyNode acc.2 a.2
      (acc.1.map (addNode a.1 rn.1), rn.2))
    x

/-- Modelled from the spec: execution of a validated patch — operations run
grouped `Remove → Update → Add` (removals first, additions last so parents
exist before their new children are inserted). -/
def applyOps (t : RbxTree) (p : List PatchOp) : RbxTree :=
  let r := addFold (addsOf p) (updFold (updatesOf p) (remFold (removesOf p) t.root), t.nextId)
  ⟨r.1, r.2⟩

/-- Does the tree contain an instance with this id? -/
def RbxTree.containsId (t : RbxTree) (id : RbxId) : Bool :=
  match t.root with
  | some r => decide (id ∈ nodeIds r)
  | none => false

/-- Modelled from the spec: the error raised by patch application when the
tree has diverged from the patch's assumed baseline. -/
inductive ApplyError where
  | staleTarget
deriving DecidableEq

deriving instance DecidableEq for Except

/-- Modelled from the spec: `apply(tree, parent_id, patch)` — fails the whole
patch atomically, signaling `StaleTarget` and leaving the tree untouched, if
any id referenced by the patch is missing from the tree; otherwise executes
the operations grouped `Remove → Update → Add`. -/
def applyPatch (t : RbxTree) (p : List PatchOp) : Except ApplyError RbxTree :=
  if p.all (fun op => t.containsId op.refId) then
    Except.ok (applyOps t p)
  else
    Except.error ApplyError.staleTarget

mutual
/-- The matched-position name agreement relation: diffing never compares or
rewrites instance names, so the round-trip law is relative to positionally
matched nodes carrying equal names; extra children on either side are
unconstrained. -/
def alignNode : RbxNode → InstanceSnapshot → Bool
  | .mk _ _ n _ ch, .mk _ n' _ ch' => n == n' && alignList ch ch'

def alignList : List RbxNode → List InstanceSnapshot → Bool
  | [], _ => true
  | _ :: _, [] => true
  | o :: os, n :: ns => alignNode o n && alignList os ns
end

/-- Modelled from the spec: `PathMap` (module `path_map`, not part of the
visible fragment) — a bidirectional index between filesystem paths and live
tree identifiers, one logical binding per path.  Represented as an
association list from path to id. -/
structure PathMap where
  bindings : List (String × RbxId)
deriving DecidableEq

/-- Modelled from the spec: `get(path) -> Option<id>`. -/
def PathMap.get (m : PathMap) (p : String) : Option RbxId :=
  (m.bindings.find? (fun b => b.1 == p)).map Prod.snd

/-- Modelled from the spec: `get_path(id) -> Option<path>` — the reverse
direction of the index. -/
def PathMap.get_path (m : PathMap) (id : RbxId) : Option String :=
  (m.bindings.find? (fun b => b.2 == id)).map Prod.fst

/-- Modelled from the spec: `insert(path, id)` — inserting a path already
bound to a different id replaces the binding (last-writer-wins) rather than
erroring. -/
def PathMap.insert (m : PathMap) (p : String) (id : RbxId) : PathMap :=
  ⟨(p, id) :: m.bindings.filter (fun b => b.1 ≠ p)⟩

/-- Modelled from the spec: `remove(path)` — drops the binding of one path. -/
def PathMap.removePath (m : PathMap) (p : String) : PathMap :=
  ⟨m.bindings.filter (fun b => b.1 ≠ p)⟩

/-- Modelled from the spec: removing an instance id removes all paths bound
to it (several paths may feed one instance). -/
def PathMap.removeId (m : PathMap) (id : RbxId) : PathMap :=
  ⟨m.bindings.filter (fun b => b.2 ≠ id)⟩

/-- One step of the `PathMap` mutation vocabulary, used to state the
any-sequence-of-operations invariant. -/
inductive PathMapOp where
  | ins (p : String) (id : RbxId)
  | rmPath (p : String)
  | rmId (id : RbxId)

/-- Run a sequence of `PathMap` operations from a starting map. -/
def PathMap.run (m : PathMap) : List PathMapOp → PathMap
  | [] => m
  | .ins p id :: ops => (m.insert p id).run ops
  | .rmPath p :: ops => (m.removePath p).run ops
  | .rmId id :: ops => (m.removeId id).run ops

/-- The map with no bindings. -/
def PathMap.empty : PathMap := ⟨[]⟩

/-- At most one binding per path: the path keys of the underlying list are
pairwise distinct. -/
def PathMap.wellFormed (m : PathMap) : Prop :=
  (m.bindings.map Prod.fst).Nodup

/-- Modelled from the spec: the typed filesystem error surfaced by `Imfs` and
the `Fetcher` capability: `NotFound`, `PermissionDenied`, `Io(other)`. -/
inductive FsError where
  | notFound
  | permissionDenied
  | ioOther
deriving DecidableEq

/-- `FsResult`, as imported by `snapshot_middleware/middleware.rs` from
`imfs`: a result that either succeeds or carries a typed filesystem error. -/
abbrev FsResult (α : Type) := Except FsError α

/-- `ImfsEntry`, as used by `SnapshotMiddleware::from_imfs`: a tagged variant
of file and directory, each carrying its (canonical) path; directories carry
their child paths. -/
inductive ImfsEntry where
  | file (path : String)
  | directory (path : String) (childPaths : List String)
deriving DecidableEq

/-- Modelled from the spec: `ImfsSnapshot` — an owned, detached copy of an
entry (recursively, for directories), usable after the live entry is
invalidated. -/
inductive ImfsSnapshot where
  | file (path : String) (contents : String)
  | directory (path : String) (children : List ImfsSnapshot)

/-- Modelled from the spec: `Imfs` — the in-memory filesystem cache behind a
`Fetcher` capability.  The fetcher is modelled as a pure function from path
to fetch outcome; the cache of already-fetched file contents is an
association list.  (`Imfs` also caches entries; the contents cache is the
part `from_imfs` reads through.) -/
structure Imfs where
  fetchRead : String → FsResult String
  contentsCache : List (String × String)

/-- Modelled from the spec: reading a file's contents through `Imfs` fetches
and caches on first access and serves later reads from the cache; a fetch
failure surfaces as the typed filesystem error and caches nothing. -/
def Imfs.readContents (imfs : Imfs) (p : String) : FsResult String × Imfs :=
  match imfs.contentsCache.lookup p with
  | some v => (Except.ok v, imfs)
  | none =>
    match imfs.fetchRead p with
    | Except.ok v => (Except.ok v, ⟨imfs.fetchRead, (p, v) :: imfs.contentsCache⟩)
    | Except.error e => (Except.error e, imfs)

/-- `SnapshotInstanceResult`, from `snapshot_middleware/middleware.rs`: an
`FsResult` whose success value is an optional instance snapshot — `Ok(None)`
is the non-error "shape not recognized" outcome, the error branch carries a
filesystem failure. -/
abbrev SnapshotInstanceResult := FsResult (Option InstanceSnapshot)

/-- `SnapshotFileResult`, from `snapshot_middleware/middleware.rs`: the
reverse conversion's result type — an optional (file name, filesystem
snapshot) pair with no error branch. -/
abbrev SnapshotFileResult := Option (String × ImfsSnapshot)

/-- The default implementation of
`SnapshotMiddleware::change_affects_paths`, from
`snapshot_middleware/middleware.rs`: `vec![path.to_path_buf()]`. -/
def change_affects_paths (path : String) : List String :=
  [path]

/-- The last component of a path, used as the instance name base.  (Defined
over the character list so that concrete instances evaluate by `decide`.) -/
def pathBaseName (p : String) : String :=
  String.mk ((p.data.reverse.takeWhile (fun c => c ≠ '/')).reverse)

/-- Does the path carry the `.lua` extension? -/
def hasLuaExt (p : String) : Bool :=
  p.data.reverse.take 4 == ".lua".data.reverse

/-- The instance name of a script file: its base name without the `.lua`
extension. -/
def scriptName (p : String) : String :=
  String.mk ((pathBaseName p).data.dropLast.dropLast.dropLast.dropLast)

/-- The shape recognized by the script middleware: a file whose path ends in
`.lua`. -/
def scriptRecognizes : ImfsEntry → Bool
  | .file p => hasLuaExt p
  | .directory _ _ => false

/-- Modelled from the spec: the script middleware variant's `from_imfs` — it
recognizes a single script file (a `.lua` path), reads its contents through
`Imfs` (propagating a filesystem error, distinct from "not recognized"), and
produces a `Script` instance snapshot whose `Source` property is the file's
contents; any other shape yields `Ok(None)`.  The Rust trait method takes
`&mut Imfs`, so the (possibly cache-extended) `Imfs` is returned alongside
the result. -/
def script_from_imfs (imfs : Imfs) (entry : ImfsEntry) :
    SnapshotInstanceResult × Imfs :=
  match entry with
  | .file p =>
    if hasLuaExt p then
      match imfs.readContents p with
      | (Except.ok src, imfs') =>
        (Except.ok (some (.mk "Script" (scriptName p) [("Source", src)] [])), imfs')
      | (Except.error e, imfs') => (Except.error e, imfs')
    else (Except.ok none, imfs)
  | .directory _ _ => (Except.ok none, imfs)

/-- The shape recognized by the folder middleware: a directory. -/
def folderRecognizes : ImfsEntry → Bool
  | .file _ => false
  | .directory _ _ => true

/-- Modelled from the spec: the folder middleware variant's `from_imfs` — it
recognizes a plain directory and produces a `Folder` instance snapshot (the
session, not this variant, populates children by snapshotting the child
entries); a file yields `Ok(None)`.  It reads no contents, so it can never
fail. -/
def folder_from_imfs (imfs : Imfs) (entry : ImfsEntry) :
    SnapshotInstanceResult × Imfs :=
  match entry with
  | .directory p _ => (Except.ok (some (.mk "Folder" (pathBaseName p) [] [])), imfs)
  | .file _ => (Except.ok none, imfs)

/-- Find the instance with the given id in the live tree. -/
def findNode (t : RbxTree) (id : RbxId) : Option RbxNode :=
  match t.root with
  | some r => findIn id r
  | none => none
where
  findIn (id : RbxId) : RbxNode → Option RbxNode
    | .mk i c n ps ch =>
      if i = id then some (.mk i c n ps ch) else findInList id ch
  findInList (id : RbxId) : List RbxNode → Option RbxNode
    | [] => none
    | x :: xs =>
      match findIn id x with
      | some r => some r
      | none => findInList id xs

/-- Modelled from the spec: the script middleware variant's `from_instance` —
given a live instance, decide whether this variant can materialize it back to
a filesystem shape; a `Script` instance becomes a `.lua` file whose contents
are its `Source` property, anything else (or a missing id) is `None`. -/
def script_from_instance (t : RbxTree) (id : RbxId) : SnapshotFileResult :=
  match findNode t id with
  | some (.mk _ c n ps _) =>
    if c = "Script" then
      some (n ++ ".lua", ImfsSnapshot.file (n ++ ".lua") ((ps.lookup "Source").getD ""))
    else none
  | none => none

/-- Modelled from the spec: the folder middleware variant's `from_instance` —
a `Folder` instance materializes back to a directory; anything else is
`None`. -/
def folder_from_instance (t : RbxTree) (id : RbxId) : SnapshotFileResult :=
  match findNode t id with
  | some (.mk _ c n _ _) =>
    if c = "Folder" then some (n, ImfsSnapshot.directory n []) else none
  | none => none

theorem get_removeId_ne (m : PathMap) (id : RbxId) (p : String) :
    (m.removeId id).get p ≠ some id := by
  intro h
  simp only [PathMap.removeId, PathMap.get, Option.map_eq_some'] at h
  rcases h with ⟨b, hfind, hsnd⟩
  have hmem := List.mem_of_find?_eq_some hfind
  have := (List.mem_filter.mp hmem).2
  simp only [decide_eq_true_eq] at this
  exact this (by rw [hsnd])

theorem nodup_keys_filter (l : List (String × RbxId)) (f : String × RbxId → Bool)
    (h : (l.map Prod.fst).Nodup) : ((l.filter f).map Prod.fst).Nodup := by
  have hs : List.Sublist ((l.filter f).map Prod.fst) (l.map Prod.fst) :=
    (List.filter_sublist l).map Prod.fst
  exact List.Nodup.sublist hs h

theorem pathmap_insert_wf (m : PathMap) (p : String) (id : RbxId)
    (h : m.wellFormed) : (m.insert p id).wellFormed := by
  unfold PathMap.wellFormed PathMap.insert at *
  simp only [List.map_cons, List.nodup_cons]
  constructor
  · intro hmem
    rcases List.mem_map.mp hmem with ⟨b, hb, hfst⟩
    have := (List.mem_filter.mp hb).2
    simp only [decide_eq_true_eq] at this
    exact this hfst
  · exact nodup_keys_filter _ _ h

theorem pathmap_run_wf (ops : List PathMapOp) :
    ∀ (m : PathMap), m.wellFormed → (m.run ops).wellFormed := by
  induction ops with
  | nil => intro m h; exact h
  | cons op ops ih =>
    intro m h
    cases op with
    | ins p id => exact ih _ (pathmap_insert_wf m p id h)
    | rmPath p => exact ih _ (nodup_keys_filter _ _ h)
    | rmId id => exact ih _ (nodup_keys_filter _ _ h)

/-- C8: `PathMap` keeps its binding invariant under every operation:
removing an id unbinds every path bound to that id; inserting a path that is
already bound rebinds it (last-writer-wins) instead of erroring; and after
any sequence of insert/remove operations starting from a well-formed map
(in particular the empty one) each path has at most one binding. -/
theorem c8_pathmap_invariant :
    (∀ (m : PathMap) (id : RbxId) (p : String), (m.removeId id).get p ≠ some id) ∧
    (∀ (m : PathMap) (p : String) (id : RbxId), (m.insert p id).get p = some id) ∧
    (∀ (m : PathMap) (ops : List PathMapOp), m.wellFormed → (m.run ops).wellFormed) ∧
    PathMap.empty.wellFormed := by
  refine ⟨get_removeId_ne, ?_, ?_, ?_⟩
  · intro m p id
    simp [PathMap.insert, PathMap.get, List.find?]
  · intro m ops h
    exact pathmap_run_wf ops m h
  · simp [PathMap.empty, PathMap.wellFormed]

/-- Witness for C8 at concrete inputs: removing id 1 unbinds path "a";
rebinding path "a" from id 1 to id 2 yields id 2; a concrete operation
sequence run from the empty map preserves well-formedness. -/
theorem c8_pathmap_invariant_witness :
    ((PathMap.mk [("a", 1)]).removeId 1).get "a" ≠ some 1 ∧
    ((PathMap.mk [("a", 1)]).insert "a" 2).get "a" = some 2 ∧
    (PathMap.empty.run [PathMapOp.ins "a" 1, PathMapOp.ins "a" 2, PathMapOp.rmId 2]).wellFormed := by
  refine ⟨c8_pathmap_invariant.1 _ 1 "a", c8_pathmap_invariant.2.1 _ "a" 2, ?_⟩
  exact c8_pathmap_invariant.2.2.1 PathMap.empty _ c8_pathmap_invariant.2.2.2

/-- C3: the default implementation of
`SnapshotMiddleware::change_affects_paths` returns exactly the one-element
list containing the given path itself. -/
theorem c3_change_affects_paths_default (p : String) :
    change_affects_paths p = [p] := rfl

/-- C9: the reverse conversion has no error channel — `SnapshotFileResult`
is an option, so every value of it (in particular every result of the
modelled variants' `from_instance`) is either `none` or a
(file name, filesystem snapshot) pair; no filesystem error can be reported. -/
theorem c9_from_instance_no_error_channel :
    (∀ r : SnapshotFileResult, r = none ∨ ∃ nm snap, r = some (nm, snap)) ∧
    (∀ (t : RbxTree) (id : RbxId), script_from_instance t id = none ∨
       ∃ nm snap, script_from_instance t id = some (nm, snap)) ∧
    (∀ (t : RbxTree) (id : RbxId), folder_from_instance t id = none ∨
       ∃ nm snap, folder_from_instance t id = some (nm, snap)) := by
  refine ⟨?_, ?_, ?_⟩
  · intro r
    match r with
    | none => exact Or.inl rfl
    | some (nm, snap) => exact Or.inr ⟨nm, snap, rfl⟩
  · intro t id
    match h : script_from_instance t id with
    | none => exact Or.inl rfl
    | some (nm, snap) => exact Or.inr ⟨nm, snap, rfl⟩
  · intro t id
    match h : folder_from_instance t id with
    | none => exact Or.inl rfl
    | some (nm, snap) => exact Or.inr ⟨nm, snap, rfl⟩

theorem readContents_fetchRead (imfs : Imfs) (p : String) :
    (imfs.readContents p).2.fetchRead = imfs.fetchRead := by
  unfold Imfs.readContents
  cases h1 : imfs.contentsCache.lookup p with
  | some v => rfl
  | none =>
    cases h2 : imfs.fetchRead p with
    | ok v => rfl
    | error e => rfl

theorem readContents_cache_monotone (imfs : Imfs) (p : String) (q : String) (v : String)
    (h : (q, v) ∈ imfs.contentsCache) : (q, v) ∈ (imfs.readContents p).2.contentsCache := by
  unfold Imfs.readContents
  cases h1 : imfs.contentsCache.lookup p with
  | some w => exact h
  | none =>
    cases h2 : imfs.fetchRead p with
    | ok w => exact List.mem_cons_of_mem _ h
    | error e => exact h

theorem readContents_error (imfs : Imfs) (p : String) (e : FsError)
    (h : (imfs.readContents p).1 = Except.error e) :
    imfs.contentsCache.lookup p = none ∧ imfs.fetchRead p = Except.error e := by
  unfold Imfs.readContents at h
  cases h1 : imfs.contentsCache.lookup p with
  | some w => rw [h1] at h; exact absurd h (by simp)
  | none =>
    rw [h1] at h
    cases h2 : imfs.fetchRead p with
    | ok w => rw [h2] at h; exact absurd h (by simp)
    | error e' =>
      rw [h2] at h
      simp only [Except.error.injEq] at h
      refine ⟨rfl, ?_⟩
      rw [h]

/-- C4: for each modelled middleware variant, `from_imfs` keeps the two
negative outcomes apart by type: an unrecognized shape yields the non-error
result `Ok(None)`, and the error branch of `SnapshotInstanceResult` occurs
only when an I/O failure happens while reading required content (for the
script variant: the entry is a recognized `.lua` file whose contents are not
cached and whose fetch fails; the folder variant reads nothing and never
errors). -/
theorem c4_from_imfs_none_vs_error :
    (∀ (imfs : Imfs) (entry : ImfsEntry), scriptRecognizes entry = false →
       (script_from_imfs imfs entry).1 = Except.ok none) ∧
    (∀ (imfs : Imfs) (entry : ImfsEntry), folderRecognizes entry = false →
       (folder_from_imfs imfs entry).1 = Except.ok none) ∧
    (∀ (imfs : Imfs) (entry : ImfsEntry) (e : FsError),
       (script_from_imfs imfs entry).1 = Except.error e →
       scriptRecognizes entry = true ∧
       ∃ p, entry = ImfsEntry.file p ∧ imfs.contentsCache.lookup p = none ∧
         imfs.fetchRead p = Except.error e) ∧
    (∀ (imfs : Imfs) (entry : ImfsEntry) (e : FsError),
       (folder_from_imfs imfs entry).1 ≠ Except.error e) := by
  refine ⟨?_, ?_, ?_, ?_⟩
  · intro imfs entry h
    cases entry with
    | file p =>
      simp only [scriptRecognizes] at h
      simp [script_from_imfs, h]
    | directory p cs => rfl
  · intro imfs entry h
    cases entry with
    | file p => rfl
    | directory p cs => simp [folderRecognizes] at h
  · intro imfs entry e h
    cases entry with
    | file p =>
      by_cases hl : hasLuaExt p
      · refine ⟨by simpa [scriptRecognizes], p, rfl, ?_⟩
        simp only [script_from_imfs, hl, if_true] at h
        have : (imfs.readContents p).1 = Except.error e := by
          rcases h2 : imfs.readContents p with ⟨r, imfs'⟩
          rw [h2] at h
          cases r with
          | ok v => simp at h
          | error e' => simpa using h
        exact readContents_error imfs p e this
      · simp [script_from_imfs, hl] at h
    | directory p cs => simp [script_from_imfs] at h
  · intro imfs entry e h
    cases entry with
    | file p => simp [folder_from_imfs] at h
    | directory p cs => simp [folder_from_imfs] at h

/-- A fetcher that always fails with `NotFound`, over an empty cache. -/
def failingImfs : Imfs := ⟨fun _ => Except.error FsError.notFound, []⟩

/-- Witness for C4 at concrete inputs: the script variant returns `Ok(None)`
on a directory, the folder variant returns `Ok(None)` on a file, a failing
fetch of a recognized `.lua` file is classified as a genuine filesystem
error, and the folder variant never errors. -/
theorem c4_from_imfs_none_vs_error_witness :
    (script_from_imfs failingImfs (ImfsEntry.directory "d" [])).1 = Except.ok none ∧
    (folder_from_imfs failingImfs (ImfsEntry.file "f")).1 = Except.ok none ∧
    (scriptRecognizes (ImfsEntry.file "a.lua") = true ∧
      ∃ p, ImfsEntry.file "a.lua" = ImfsEntry.file p ∧
        failingImfs.contentsCache.lookup p = none ∧
        failingImfs.fetchRead p = Except.error FsError.notFound) ∧
    (folder_from_imfs failingImfs (ImfsEntry.directory "d" [])).1 ≠
      Except.error FsError.ioOther := by
  refine ⟨c4_from_imfs_none_vs_error.1 failingImfs _ (by decide),
          c4_from_imfs_none_vs_error.2.1 failingImfs _ (by decide),
          c4_from_imfs_none_vs_error.2.2.1 failingImfs _ FsError.notFound (by decide),
          c4_from_imfs_none_vs_error.2.2.2 failingImfs _ FsError.ioOther⟩

/-- A fetcher that always succeeds with contents "x", over an empty cache. -/
def okImfs : Imfs := ⟨fun _ => Except.ok "x", []⟩

/-- Counterexample to C5 as stated: the trait signature takes
`imfs: &mut Imfs<F>`, and reading a recognized script's contents through the
lazily-fetching `Imfs` populates the contents cache — so `from_imfs` does
not leave the `Imfs` state unchanged. -/
theorem c5_counterexample_cache_mutated :
    (script_from_imfs okImfs (ImfsEntry.file "a.lua")).2.contentsCache ≠
      okImfs.contentsCache := by decide

/-- C5 (amended): `from_imfs` is read-only up to lazy cache fill — it never
changes the fetcher (the underlying filesystem access is untouched) and only
ever extends the contents cache, preserving every previously cached entry
with its value; the folder variant leaves the `Imfs` entirely unchanged. -/
theorem c5_from_imfs_readonly_up_to_cache :
    (∀ (imfs : Imfs) (entry : ImfsEntry),
       (script_from_imfs imfs entry).2.fetchRead = imfs.fetchRead ∧
       ∀ p v, (p, v) ∈ imfs.contentsCache →
         (p, v) ∈ (script_from_imfs imfs entry).2.contentsCache) ∧
    (∀ (imfs : Imfs) (entry : ImfsEntry), (folder_from_imfs imfs entry).2 = imfs) := by
  constructor
  · intro imfs entry
    cases entry with
    | file p =>
      by_cases hl : hasLuaExt p
      · simp only [script_from_imfs, hl, if_true]
        rcases h2 : imfs.readContents p with ⟨r, imfs'⟩
        have hf := readContents_fetchRead imfs p
        have hm := fun q v hqv => readContents_cache_monotone imfs p q v hqv
        rw [h2] at hf hm
        cases r with
        | ok v => exact ⟨hf, fun q v hqv => hm q v hqv⟩
        | error e => exact ⟨hf, fun q v hqv => hm q v hqv⟩
      · simp only [script_from_imfs, hl, if_false]
        exact ⟨rfl, fun q v hqv => hqv⟩
    | directory p cs => exact ⟨rfl, fun q v hqv => hqv⟩
  · intro imfs entry
    cases entry with
    | file p => rfl
    | directory p cs => rfl

/-- An `Imfs` with one pre-cached entry, used to witness cache preservation. -/
def cachedImfs : Imfs := ⟨fun _ => Except.ok "x", [("q", "1")]⟩

/-- Witness for the amended C5 at a concrete input: reading `a.lua` through
an `Imfs` that already caches ("q", "1") preserves that cached entry. -/
theorem c5_from_imfs_readonly_up_to_cache_witness :
    ("q", "1") ∈ (script_from_imfs cachedImfs (ImfsEntry.file "a.lua")).2.contentsCache ∧
    (folder_from_imfs cachedImfs (ImfsEntry.directory "d" [])).2 = cachedImfs := by
  exact ⟨(c5_from_imfs_readonly_up_to_cache.1 cachedImfs (ImfsEntry.file "a.lua")).2
           "q" "1" (by decide),
         c5_from_imfs_readonly_up_to_cache.2 cachedImfs (ImfsEntry.directory "d" [])⟩

theorem diffSome_self_empty : ∀ r : RbxNode, diffSome r (stripNode r) = [] := by
  intro r
  induction r using RbxNode.indOn with
  | h i c n ps ch ih =>
    rw [stripNode, diffSome]
    simp only [ne_eq, not_true_eq_false, false_or, or_self, if_neg, ite_eq_right_iff,
      List.nil_append]
    have hk : ∀ l, (∀ x, x ∈ l → diffSome x (stripNode x) = []) →
        diffKids i l (stripList l) = [] := by
      intro l
      induction l with
      | nil => intro _; rw [stripList]; rfl
      | cons x xs ihl =>
        intro hmem
        rw [stripList, diffKids, hmem x (by simp), ihl (fun y hy => hmem y (by simp [hy]))]
        rfl
    rw [if_neg (by simp), hk ch ih]
    rfl

/-- C7: diffing a live subtree against its own structural snapshot yields the
empty patch — no spurious `Add`, `Update`, or `Remove` operations. -/
theorem c7_diff_self_empty (pid : RbxId) (r : RbxNode) :
    diff pid (some r) (some (stripNode r)) = [] :=
  diffSome_self_empty r

theorem diffKids_closed (pid : RbxId) :
    ∀ (ch : List RbxNode) (cB : List InstanceSnapshot),
    diffKids pid ch cB =
      ((ch.zip cB).bind fun ob => diffSome ob.1 ob.2)
      ++ (cB.drop ch.length).map (PatchOp.add pid)
      ++ ((ch.drop cB.length).map fun o => PatchOp.remove o.nodeId) := by
  intro ch
  induction ch with
  | nil => intro cB; simp [diffKids]
  | cons o os ih =>
    intro cB
    cases cB with
    | nil => simp [diffKids]
    | cons b bs =>
      rw [diffKids, ih bs]
      simp [List.append_assoc]

/-- C6: the structural rules of `diff`: both `None` gives the empty patch;
`old = None, new = Some` a single `Add`; `old = Some, new = None` a single
`Remove`; when both are present an `Update` is emitted exactly when the class
name or the properties differ, children are diffed pairwise by index position
(the zipped prefix), and a length mismatch produces trailing `Add` operations
for extra new children or trailing `Remove` operations for extra old
children. -/
theorem c6_diff_rules :
    (∀ pid, diff pid none none = []) ∧
    (∀ pid (B : InstanceSnapshot), diff pid none (some B) = [PatchOp.add pid B]) ∧
    (∀ pid (r : RbxNode), diff pid (some r) none = [PatchOp.remove r.nodeId]) ∧
    (∀ pid (r : RbxNode) (B : InstanceSnapshot),
      diff pid (some r) (some B) =
        (if r.cls ≠ B.className ∨ r.props ≠ B.properties
         then [PatchOp.update r.nodeId B.className B.properties] else [])
        ++ ((r.children.zip B.children).bind fun ob => diffSome ob.1 ob.2)
        ++ (B.children.drop r.children.length).map (PatchOp.add r.nodeId)
        ++ ((r.children.drop B.children.length).map fun o => PatchOp.remove o.nodeId)) := by
  refine ⟨fun _ => rfl, fun _ _ => rfl, fun _ _ => rfl, ?_⟩
  intro pid r B
  cases r with
  | mk i c n ps ch =>
    cases B with
    | mk c' n' ps' ch' =>
      show diffSome (.mk i c n ps ch) (.mk c' n' ps' ch') = _
      rw [diffSome, diffKids_closed i ch ch']
      simp only [RbxNode.cls, RbxNode.props, RbxNode.nodeId, RbxNode.children,
        InstanceSnapshot.className, InstanceSnapshot.properties, InstanceSnapshot.children,
        List.append_assoc]

theorem nodeIdsList_append (l1 l2 : List RbxNode) :
    nodeIdsList (l1 ++ l2) = nodeIdsList l1 ++ nodeIdsList l2 := by
  induction l1 with
  | nil => simp [nodeIdsList]
  | cons x xs ih => simp [nodeIdsList, ih]

theorem mem_nodeIdsList (l : List RbxNode) (j : RbxId) :
    j ∈ nodeIdsList l ↔ ∃ x ∈ l, j ∈ nodeIds x := by
  induction l with
  | nil => simp [nodeIdsList]
  | cons x xs ih => simp [nodeIdsList, ih]

theorem nodeId_mem_nodeIds (r : RbxNode) : r.nodeId ∈ nodeIds r := by
  cases r with
  | mk i c n ps ch => simp [RbxNode.nodeId, nodeIds]

theorem removeNode_noop : ∀ (r : RbxNode) (id : RbxId),
    id ∉ nodeIds r → removeNode id r = some r := by
  intro r
  induction r using RbxNode.indOn with
  | h i c n ps ch ih =>
    intro id hid
    rw [nodeIds] at hid
    simp only [List.mem_cons, not_or] at hid
    rw [removeNode, if_neg (fun he => hid.1 (by rw [he]))]
    have hl : ∀ l : List RbxNode, (∀ x, x ∈ l → x ∈ ch) → id ∉ nodeIdsList l →
        removeList id l = l := by
      intro l
      induction l with
      | nil => intro _ _; rfl
      | cons x xs ihl =>
        intro hsub hni
        rw [nodeIdsList] at hni
        simp only [List.mem_append, not_or] at hni
        rw [removeList, ih x (hsub x (by simp)) id hni.1,
          ihl (fun y hy => hsub y (by simp [hy])) hni.2]
    rw [hl ch (fun x hx => hx) hid.2]

theorem removeList_noop (l : List RbxNode) (id : RbxId)
    (h : id ∉ nodeIdsList l) : removeList id l = l := by
  induction l with
  | nil => rfl
  | cons x xs ih =>
    rw [nodeIdsList] at h
    simp only [List.mem_append, not_or] at h
    rw [removeList, removeNode_noop x id h.1, ih h.2]

theorem updateNode_noop : ∀ (r : RbxNode) (id : RbxId) (c' : String)
    (ps' : List (String × String)), id ∉ nodeIds r → updateNode id c' ps' r = r := by
  intro r
  induction r using RbxNode.indOn with
  | h i c n ps ch ih =>
    intro id c' ps' hid
    rw [nodeIds] at hid
    simp only [List.mem_cons, not_or] at hid
    rw [updateNode, if_neg (fun he => hid.1 (by rw [he])),
      if_neg (fun he => hid.1 (by rw [he]))]
    have hl : ∀ l : List RbxNode, (∀ x, x ∈ l → x ∈ ch) → id ∉ nodeIdsList l →
        updateList id c' ps' l = l := by
      intro l
      induction l with
      | nil => intro _ _; rfl
      | cons x xs ihl =>
        intro hsub hni
        rw [nodeIdsList] at hni
        simp only [List.mem_append, not_or] at hni
        rw [updateList, ih x (hsub x (by simp)) id c' ps' hni.1,
          ihl (fun y hy => hsub y (by simp [hy])) hni.2]
    rw [hl ch (fun x hx => hx) hid.2]

theorem updateList_noop (l : List RbxNode) (id : RbxId) (c' : String)
    (ps' : List (String × String)) (h : id ∉ nodeIdsList l) :
    updateList id c' ps' l = l := by
  induction l with
  | nil => rfl
  | cons x xs ih =>
    rw [nodeIdsList] at h
    simp only [List.mem_append, not_or] at h
    rw [updateList, updateNode_noop x id c' ps' h.1, ih h.2]

theorem addNode_noop : ∀ (r : RbxNode) (pid : RbxId) (x : RbxNode),
    pid ∉ nodeIds r → addNode pid x r = r := by
  intro r
  induction r using RbxNode.indOn with
  | h i c n ps ch ih =>
    intro pid x hid
    rw [nodeIds] at hid
    simp only [List.mem_cons, not_or] at hid
    rw [addNode, if_neg (fun he => hid.1 (by rw [he]))]
    have hl : ∀ l : List RbxNode, (∀ y, y ∈ l → y ∈ ch) → pid ∉ nodeIdsList l →
        addList pid x l = l := by
      intro l
      induction l with
      | nil => intro _ _; rfl
      | cons y ys ihl =>
        intro hsub hni
        rw [nodeIdsList] at hni
        simp only [List.mem_append, not_or] at hni
        rw [addList, ih y (hsub y (by simp)) pid x hni.1,
          ihl (fun z hz => hsub z (by simp [hz])) hni.2]
    rw [hl ch (fun y hy => hy) hid.2]
    simp

theorem addList_noop (l : List RbxNode) (pid : RbxId) (x : RbxNode)
    (h : pid ∉ nodeIdsList l) : addList pid x l = l := by
  induction l with
  | nil => rfl
  | cons y ys ih =>
    rw [nodeIdsList] at h
    simp only [List.mem_append, not_or] at h
    rw [addList, addNode_noop y pid x h.1, ih h.2]

theorem nodeIds_updateNode : ∀ (r : RbxNode) (id : RbxId) (c' : String)
    (ps' : List (String × String)), nodeIds (updateNode id c' ps' r) = nodeIds r := by
  intro r
  induction r using RbxNode.indOn with
  | h i c n ps ch ih =>
    intro id c' ps'
    rw [updateNode]
    have hl : ∀ l : List RbxNode, (∀ x, x ∈ l → x ∈ ch) →
        nodeIdsList (updateList id c' ps' l) = nodeIdsList l := by
      intro l
      induction l with
      | nil => intro _; rfl
      | cons x xs ihl =>
        intro hsub
        rw [updateList, nodeIdsList, nodeIdsList, ih x (hsub x (by simp)) id c' ps',
          ihl (fun y hy => hsub y (by simp [hy]))]
    rw [nodeIds, nodeIds, hl ch (fun x hx => hx)]

theorem nodeIdsList_updateList (l : List RbxNode) (id : RbxId) (c' : String)
    (ps' : List (String × String)) :
    nodeIdsList (updateList id c' ps' l) = nodeIdsList l := by
  induction l with
  | nil => rfl
  | cons x xs ih =>
    rw [updateList, nodeIdsList, nodeIdsList, nodeIds_updateNode x id c' ps', ih]

theorem removeNode_ids_subset : ∀ (r : RbxNode) (id : RbxId) (r' : RbxNode),
    removeNode id r = some r' → ∀ j, j ∈ nodeIds r' → j ∈ nodeIds r := by
  intro r
  induction r using RbxNode.indOn with
  | h i c n ps ch ih =>
    intro id r' hr j hj
    rw [removeNode] at hr
    by_cases hb : i = id
    · rw [if_pos hb] at hr; exact absurd hr (by simp)
    · rw [if_neg hb] at hr
      have hr' : r' = RbxNode.mk i c n ps (removeList id ch) := by
        simpa using hr.symm
      subst hr'
      rw [nodeIds] at hj ⊢
      rcases List.mem_cons.mp hj with h1 | h2
      · exact List.mem_cons.mpr (Or.inl h1)
      · refine List.mem_cons.mpr (Or.inr ?_)
        have hl : ∀ l : List RbxNode, (∀ x, x ∈ l → x ∈ ch) →
            j ∈ nodeIdsList (removeList id l) → j ∈ nodeIdsList l := by
          intro l
          induction l with
          | nil => intro _ hx; exact hx
          | cons x xs ihl =>
            intro hsub hx
            rw [removeList] at hx
            cases hrx : removeNode id x with
            | none =>
              rw [hrx] at hx
              rw [nodeIdsList]
              exact List.mem_append.mpr (Or.inr (ihl (fun y hy => hsub y (by simp [hy])) hx))
            | some y =>
              rw [hrx] at hx
              rw [nodeIdsList] at hx ⊢
              rcases List.mem_append.mp hx with h3 | h4
              · exact List.mem_append.mpr
                  (Or.inl (ih x (hsub x (by simp)) id y hrx j h3))
              · exact List.mem_append.mpr
                  (Or.inr (ihl (fun y hy => hsub y (by simp [hy])) h4))
        exact hl ch (fun x hx => hx) h2

theorem removeList_ids_subset (l : List RbxNode) (id : RbxId) :
    ∀ j, j ∈ nodeIdsList (removeList id l) → j ∈ nodeIdsList l := by
  induction l with
  | nil => intro j hj; exact hj
  | cons x xs ih =>
    intro j hj
    rw [removeList] at hj
    cases hrx : removeNode id x with
    | none =>
      rw [hrx] at hj
      rw [nodeIdsList]
      exact List.mem_append.mpr (Or.inr (ih j hj))
    | some y =>
      rw [hrx] at hj
      rw [nodeIdsList] at hj ⊢
      rcases List.mem_append.mp hj with h1 | h2
      · exact List.mem_append.mpr (Or.inl (removeNode_ids_subset x id y hrx j h1))
      · exact List.mem_append.mpr (Or.inr (ih j h2))

theorem removeNode_not_mem : ∀ (r : RbxNode) (id : RbxId) (r' : RbxNode),
    removeNode id r = some r' → id ∉ nodeIds r' := by
  intro r
  induction r using RbxNode.indOn with
  | h i c n ps ch ih =>
    intro id r' hr hmem
    rw [removeNode] at hr
    by_cases hb : i = id
    · rw [if_pos hb] at hr; exact absurd hr (by simp)
    · rw [if_neg hb] at hr
      have hr' : r' = RbxNode.mk i c n ps (removeList id ch) := by
        simpa using hr.symm
      subst hr'
      rw [nodeIds] at hmem
      rcases List.mem_cons.mp hmem with h1 | h2
      · exact hb h1.symm
      · have hl : ∀ l : List RbxNode, (∀ x, x ∈ l → x ∈ ch) →
            id ∉ nodeIdsList (removeList id l) := by
          intro l
          induction l with
          | nil => intro _; simp [removeList, nodeIdsList]
          | cons x xs ihl =>
            intro hsub hx
            rw [removeList] at hx
            cases hrx : removeNode id x with
            | none =>
              rw [hrx] at hx
              exact ihl (fun y hy => hsub y (by simp [hy])) hx
            | some y =>
              rw [hrx] at hx
              rw [nodeIdsList] at hx
              rcases List.mem_append.mp hx with h3 | h4
              · exact ih x (hsub x (by simp)) id y hrx h3
              · exact ihl (fun y hy => hsub y (by simp [hy])) h4
        exact hl ch (fun x hx => hx) h2

theorem removeList_not_mem (l : List RbxNode) (id : RbxId) :
    id ∉ nodeIdsList (removeList id l) := by
  induction l with
  | nil => simp [removeList, nodeIdsList]
  | cons x xs ih =>
    intro hx
    rw [removeList] at hx
    cases hrx : removeNode id x with
    | none => rw [hrx] at hx; exact ih hx
    | some y =>
      rw [hrx] at hx
      rw [nodeIdsList] at hx
      rcases List.mem_append.mp hx with h1 | h2
      · exact removeNode_not_mem x id y hrx h1
      · exact ih h2

theorem addNode_ids_subset : ∀ (r : RbxNode) (pid : RbxId) (x : RbxNode),
    ∀ j, j ∈ nodeIds (addNode pid x r) → j ∈ nodeIds r ∨ j ∈ nodeIds x := by
  intro r
  induction r using RbxNode.indOn with
  | h i c n ps ch ih =>
    intro pid x j hj
    rw [addNode] at hj
    rw [nodeIds] at hj
    rw [nodeIds]
    rcases List.mem_cons.mp hj with h1 | h2
    · exact Or.inl (List.mem_cons.mpr (Or.inl h1))
    · rw [nodeIdsList_append] at h2
      rcases List.mem_append.mp h2 with h3 | h4
      · have hl : ∀ l : List RbxNode, (∀ y, y ∈ l → y ∈ ch) →
            j ∈ nodeIdsList (addList pid x l) → j ∈ nodeIdsList l ∨ j ∈ nodeIds x := by
          intro l
          induction l with
          | nil => intro _ hy; exact Or.inl hy
          | cons y ys ihl =>
            intro hsub hy
            rw [addList, nodeIdsList] at hy
            rcases List.mem_append.mp hy with h5 | h6
            · rcases ih y (hsub y (by simp)) pid x j h5 with h7 | h8
              · exact Or.inl (by rw [nodeIdsList]; exact List.mem_append.mpr (Or.inl h7))
              · exact Or.inr h8
            · rcases ihl (fun z hz => hsub z (by simp [hz])) h6 with h7 | h8
              · exact Or.inl (by rw [nodeIdsList]; exact List.mem_append.mpr (Or.inr h7))
              · exact Or.inr h8
        rcases hl ch (fun y hy => hy) h3 with h5 | h6
        · exact Or.inl (List.mem_cons.mpr (Or.inr h5))
        · exact Or.inr h6
      · by_cases hp : i = pid
        · rw [if_pos hp] at h4
          rw [nodeIdsList, nodeIdsList] at h4
          simp only [List.append_nil] at h4
          exact Or.inr h4
        · rw [if_neg hp] at h4
          exact absurd h4 (by simp [nodeIdsList])

theorem addList_ids_subset (l : List RbxNode) (pid : RbxId) (x : RbxNode) :
    ∀ j, j ∈ nodeIdsList (addList pid x l) → j ∈ nodeIdsList l ∨ j ∈ nodeIds x := by
  induction l with
  | nil => intro j hj; exact Or.inl hj
  | cons y ys ih =>
    intro j hj
    rw [addList, nodeIdsList] at hj
    rcases List.mem_append.mp hj with h1 | h2
    · rcases addNode_ids_subset y pid x j h1 with h3 | h4
      · exact Or.inl (by rw [nodeIdsList]; exact List.mem_append.mpr (Or.inl h3))
      · exact Or.inr h4
    · rcases ih j h2 with h3 | h4
      · exact Or.inl (by rw [nodeIdsList]; exact List.mem_append.mpr (Or.inr h3))
      · exact Or.inr h4

theorem reifyNode_facts : ∀ (s : InstanceSnapshot) (k : Nat),
    stripNode (reifyNode k s).1 = s ∧
    k < (reifyNode k s).2 ∧
    (∀ j, j ∈ nodeIds (reifyNode k s).1 → k ≤ j ∧ j < (reifyNode k s).2) ∧
    (nodeIds (reifyNode k s).1).Nodup := by
  intro s
  induction s using InstanceSnapshot.indOn with
  | h c n ps ch ih =>
    have hlist : ∀ l : List InstanceSnapshot, (∀ x, x ∈ l → x ∈ ch) → ∀ k,
        stripList (reifyList k l).1 = l ∧
        k ≤ (reifyList k l).2 ∧
        (∀ j, j ∈ nodeIdsList (reifyList k l).1 → k ≤ j ∧ j < (reifyList k l).2) ∧
        (nodeIdsList (reifyList k l).1).Nodup := by
      intro l
      induction l with
      | nil =>
        intro _ k
        exact ⟨rfl, Nat.le_refl k, by simp [reifyList, nodeIdsList], by simp [reifyList, nodeIdsList]⟩
      | cons x xs ihl =>
        intro hsub k
        obtain ⟨ha1, ha2, ha3, ha4⟩ := ih x (hsub x (by simp)) k
        obtain ⟨hb1, hb2, hb3, hb4⟩ :=
          ihl (fun y hy => hsub y (by simp [hy])) (reifyNode k x).2
        rw [reifyList]
        refine ⟨?_, ?_, ?_, ?_⟩
        · rw [stripList, ha1, hb1]
        · exact Nat.le_trans (Nat.le_of_lt ha2) hb2
        · intro j hj
          rw [nodeIdsList] at hj
          rcases List.mem_append.mp hj with h1 | h2
          · obtain ⟨h3, h4⟩ := ha3 j h1
            exact ⟨h3, Nat.lt_of_lt_of_le h4 hb2⟩
          · obtain ⟨h3, h4⟩ := hb3 j h2
            exact ⟨Nat.le_trans (Nat.le_of_lt ha2) h3, h4⟩
        · rw [nodeIdsList]
          rw [List.nodup_append]
          refine ⟨ha4, hb4, ?_⟩
          intro j hja hjb
          obtain ⟨_, h4⟩ := ha3 j hja
          obtain ⟨h5, _⟩ := hb3 j hjb
          exact absurd (Nat.lt_of_lt_of_le h4 h5) (Nat.lt_irrefl j)
    intro k
    obtain ⟨hl1, hl2, hl3, hl4⟩ := hlist ch (fun x hx => hx) (k + 1)
    rw [reifyNode]
    refine ⟨?_, ?_, ?_, ?_⟩
    · rw [stripNode, hl1]
    · exact Nat.lt_of_lt_of_le (Nat.lt_succ_self k) hl2
    · intro j hj
      rw [nodeIds] at hj
      rcases List.mem_cons.mp hj with h1 | h2
      · subst h1
        exact ⟨Nat.le_refl j, Nat.lt_of_lt_of_le (Nat.lt_succ_self j) hl2⟩
      · obtain ⟨h3, h4⟩ := hl3 j h2
        exact ⟨Nat.le_trans (Nat.le_succ k) h3, h4⟩
    · rw [nodeIds, List.nodup_cons]
      refine ⟨?_, hl4⟩
      intro hk
      obtain ⟨h3, _⟩ := hl3 k hk
      exact absurd h3 (Nat.not_succ_le_self k)

theorem reifyList_facts (l : List InstanceSnapshot) : ∀ (k : Nat),
    stripList (reifyList k l).1 = l ∧
    k ≤ (reifyList k l).2 ∧
    (∀ j, j ∈ nodeIdsList (reifyList k l).1 → k ≤ j ∧ j < (reifyList k l).2) ∧
    (nodeIdsList (reifyList k l).1).Nodup := by
  induction l with
  | nil =>
    intro k
    exact ⟨rfl, Nat.le_refl k, by simp [reifyList, nodeIdsList], by simp [reifyList, nodeIdsList]⟩
  | cons x xs ihl =>
    intro k
    obtain ⟨ha1, ha2, ha3, ha4⟩ := reifyNode_facts x k
    obtain ⟨hb1, hb2, hb3, hb4⟩ := ihl (reifyNode k x).2
    rw [reifyList]
    refine ⟨?_, ?_, ?_, ?_⟩
    · rw [stripList, ha1, hb1]
    · exact Nat.le_trans (Nat.le_of_lt ha2) hb2
    · intro j hj
      rw [nodeIdsList] at hj
      rcases List.mem_append.mp hj with h1 | h2
      · obtain ⟨h3, h4⟩ := ha3 j h1
        exact ⟨h3, Nat.lt_of_lt_of_le h4 hb2⟩
      · obtain ⟨h3, h4⟩ := hb3 j h2
        exact ⟨Nat.le_trans (Nat.le_of_lt ha2) h3, h4⟩
    · rw [nodeIdsList, List.nodup_append]
      refine ⟨ha4, hb4, ?_⟩
      intro j hja hjb
      obtain ⟨_, h4⟩ := ha3 j hja
      obtain ⟨h5, _⟩ := hb3 j hjb
      exact absurd (Nat.lt_of_lt_of_le h4 h5) (Nat.lt_irrefl j)

/-- List-level remove phase: fold the `Remove` targets over a child list. -/
def remFoldL (rs : List RbxId) (l : List RbxNode) : List RbxNode :=
  rs.foldl (fun acc id => removeList id acc) l

/-- List-level update phase. -/
def updFoldL (us : List (RbxId × String × List (String × String)))
    (l : List RbxNode) : List RbxNode :=
  us.foldl (fun acc u => updateList u.1 u.2.1 u.2.2 acc) l

/-- Single-node update phase. -/
def updFoldN (us : List (RbxId × String × List (String × String)))
    (x : RbxNode) : RbxNode :=
  us.foldl (fun y u => updateNode u.1 u.2.1 u.2.2 y) x

/-- List-level add phase, threading the fresh-id counter. -/
def addFoldL (as' : List (RbxId × InstanceSnapshot))
    (x : List RbxNode × Nat) : List RbxNode × Nat :=
  as'.foldl
    (fun acc a =>
      let rn := reifyNode acc.2 a.2
      (addList a.1 rn.1 acc.1, rn.2))
    x

/-- Single-node add phase, threading the fresh-id counter. -/
def addFoldN (as' : List (RbxId × InstanceSnapshot))
    (x : RbxNode × Nat) : RbxNode × Nat :=
  as'.foldl
    (fun acc a =>
      let rn := reifyNode acc.2 a.2
      (addNode a.1 rn.1 acc.1, rn.2))
    x

/-- The add phase as seen from inside a node with id `i`: additions aimed at
`i` itself are appended at the end of its child list, all others recurse into
the children. -/
def addFoldCh (i : RbxId) (as' : List (RbxId × InstanceSnapshot))
    (x : List RbxNode × Nat) : List RbxNode × Nat :=
  as'.foldl
    (fun acc a =>
      let rn := reifyNode acc.2 a.2
      (addList a.1 rn.1 acc.1 ++ (if i = a.1 then [rn.1] else []), rn.2))
    x

/-- The class name and properties of the node with id `i` after a list of
update operations is applied. -/
def fieldsAfter (us : List (RbxId × String × List (String × String)))
    (i : RbxId) (cp : String × List (String × String)) :
    String × List (String × String) :=
  us.foldl (fun acc u => if u.1 = i then (u.2.1, u.2.2) else acc) cp

theorem removesOf_append (p q : List PatchOp) :
    removesOf (p ++ q) = removesOf p ++ removesOf q := by
  simp [removesOf]

theorem updatesOf_append (p q : List PatchOp) :
    updatesOf (p ++ q) = updatesOf p ++ updatesOf q := by
  simp [updatesOf]

theorem addsOf_append (p q : List PatchOp) :
    addsOf (p ++ q) = addsOf p ++ addsOf q := by
  simp [addsOf]

theorem removesOf_map_add (pid : RbxId) (l : List InstanceSnapshot) :
    removesOf (l.map (PatchOp.add pid)) = [] := by
  induction l with
  | nil => rfl
  | cons x xs ih => simpa [removesOf] using ih

theorem updatesOf_map_add (pid : RbxId) (l : List InstanceSnapshot) :
    updatesOf (l.map (PatchOp.add pid)) = [] := by
  induction l with
  | nil => rfl
  | cons x xs ih => simpa [updatesOf] using ih

theorem addsOf_map_add (pid : RbxId) (l : List InstanceSnapshot) :
    addsOf (l.map (PatchOp.add pid)) = l.map (fun s => (pid, s)) := by
  induction l with
  | nil => rfl
  | cons x xs ih => simpa [addsOf] using ih

theorem removesOf_map_remove (l : List RbxNode) :
    removesOf (l.map fun o => PatchOp.remove o.nodeId) = l.map RbxNode.nodeId := by
  induction l with
  | nil => rfl
  | cons x xs ih => simpa [removesOf] using ih

theorem updatesOf_map_remove (l : List RbxNode) :
    updatesOf (l.map fun o => PatchOp.remove o.nodeId) = [] := by
  induction l with
  | nil => rfl
  | cons x xs ih => simpa [updatesOf] using ih

theorem addsOf_map_remove (l : List RbxNode) :
    addsOf (l.map fun o => PatchOp.remove o.nodeId) = [] := by
  induction l with
  | nil => rfl
  | cons x xs ih => simpa [addsOf] using ih

theorem remFold_append (rs1 rs2 : List RbxId) (x : Option RbxNode) :
    remFold (rs1 ++ rs2) x = remFold rs2 (remFold rs1 x) := by
  unfold remFold; exact List.foldl_append _ _ _ _

theorem updFold_append (us1 us2 : List (RbxId × String × List (String × String)))
    (x : Option RbxNode) : updFold (us1 ++ us2) x = updFold us2 (updFold us1 x) := by
  unfold updFold; exact List.foldl_append _ _ _ _

theorem addFold_append (as1 as2 : List (RbxId × InstanceSnapshot))
    (x : Option RbxNode × Nat) : addFold (as1 ++ as2) x = addFold as2 (addFold as1 x) := by
  unfold addFold; exact List.foldl_append _ _ _ _

theorem remFoldL_append_targets (rs1 rs2 : List RbxId) (l : List RbxNode) :
    remFoldL (rs1 ++ rs2) l = remFoldL rs2 (remFoldL rs1 l) := by
  unfold remFoldL; exact List.foldl_append _ _ _ _

theorem updFoldL_append_targets (us1 us2 : List (RbxId × String × List (String × String)))
    (l : List RbxNode) : updFoldL (us1 ++ us2) l = updFoldL us2 (updFoldL us1 l) := by
  unfold updFoldL; exact List.foldl_append _ _ _ _

theorem addFoldL_append_targets (as1 as2 : List (RbxId × InstanceSnapshot))
    (x : List RbxNode × Nat) : addFoldL (as1 ++ as2) x = addFoldL as2 (addFoldL as1 x) := by
  unfold addFoldL; exact List.foldl_append _ _ _ _

theorem addFoldCh_append_targets (i : RbxId) (as1 as2 : List (RbxId × InstanceSnapshot))
    (x : List RbxNode × Nat) : addFoldCh i (as1 ++ as2) x = addFoldCh i as2 (addFoldCh i as1 x) := by
  unfold addFoldCh; exact List.foldl_append _ _ _ _

theorem updFoldN_append_targets (us1 us2 : List (RbxId × String × List (String × String)))
    (x : RbxNode) : updFoldN (us1 ++ us2) x = updFoldN us2 (updFoldN us1 x) := by
  unfold updFoldN; exact List.foldl_append _ _ _ _

theorem addFoldN_append_targets (as1 as2 : List (RbxId × InstanceSnapshot))
    (x : RbxNode × Nat) : addFoldN (as1 ++ as2) x = addFoldN as2 (addFoldN as1 x) := by
  unfold addFoldN; exact List.foldl_append _ _ _ _

theorem fieldsAfter_append (us1 us2 : List (RbxId × String × List (String × String)))
    (i : RbxId) (cp : String × List (String × String)) :
    fieldsAfter (us1 ++ us2) i cp = fieldsAfter us2 i (fieldsAfter us1 i cp) := by
  unfold fieldsAfter; exact List.foldl_append _ _ _ _

theorem remFold_none (rs : List RbxId) : remFold rs none = none := by
  induction rs with
  | nil => rfl
  | cons id rs ih => simpa [remFold, List.foldl_cons] using ih

theorem updFold_some (us : List (RbxId × String × List (String × String))) :
    ∀ x : RbxNode, updFold us (some x) = some (updFoldN us x) := by
  induction us with
  | nil => intro x; rfl
  | cons u us ih =>
    intro x
    show updFold us (some (updateNode u.1 u.2.1 u.2.2 x)) = _
    rw [ih]
    rfl

theorem addFold_some (as' : List (RbxId × InstanceSnapshot)) :
    ∀ (x : RbxNode) (k : Nat),
    addFold as' (some x, k) =
      (some (addFoldN as' (x, k)).1, (addFoldN as' (x, k)).2) := by
  induction as' with
  | nil => intro x k; rfl
  | cons a as ih =>
    intro x k
    show addFold as (some (addNode a.1 (reifyNode k a.2).1 x), (reifyNode k a.2).2) = _
    rw [ih]
    rfl

theorem remFold_node (rs : List RbxId) :
    ∀ (i : RbxId) (c n : String) (ps : List (String × String)) (ch : List RbxNode),
    (∀ id, id ∈ rs → id ≠ i) →
    remFold rs (some (RbxNode.mk i c n ps ch)) =
      some (RbxNode.mk i c n ps (remFoldL rs ch)) := by
  induction rs with
  | nil => intro i c n ps ch _; rfl
  | cons id rs ih =>
    intro i c n ps ch h
    have h1 : id ≠ i := h id (by simp)
    show remFold rs ((some (RbxNode.mk i c n ps ch)).bind (removeNode id)) = _
    rw [Option.some_bind, removeNode, if_neg (fun he => h1 he.symm)]
    rw [ih i c n ps (removeList id ch) (fun j hj => h j (by simp [hj]))]
    rfl

theorem updFoldN_node (us : List (RbxId × String × List (String × String))) :
    ∀ (i : RbxId) (c n : String) (ps : List (String × String)) (ch : List RbxNode),
    updFoldN us (RbxNode.mk i c n ps ch) =
      RbxNode.mk i (fieldsAfter us i (c, ps)).1 n (fieldsAfter us i (c, ps)).2
        (updFoldL us ch) := by
  induction us with
  | nil => intro i c n ps ch; rfl
  | cons u us ih =>
    intro i c n ps ch
    show updFoldN us (updateNode u.1 u.2.1 u.2.2 (RbxNode.mk i c n ps ch)) = _
    rw [updateNode]
    rw [ih]
    by_cases h : i = u.1
    · have h' : u.1 = i := h.symm
      simp only [if_pos h]
      have : fieldsAfter (u :: us) i (c, ps) = fieldsAfter us i (u.2.1, u.2.2) := by
        show fieldsAfter us i (if u.1 = i then (u.2.1, u.2.2) else (c, ps)) = _
        rw [if_pos h']
      rw [this]
      rfl
    · have h' : u.1 ≠ i := fun he => h he.symm
      simp only [if_neg h]
      have : fieldsAfter (u :: us) i (c, ps) = fieldsAfter us i (c, ps) := by
        show fieldsAfter us i (if u.1 = i then (u.2.1, u.2.2) else (c, ps)) = _
        rw [if_neg h']
      rw [this]
      rfl

theorem addFoldN_node (as' : List (RbxId × InstanceSnapshot)) :
    ∀ (i : RbxId) (c n : String) (ps : List (String × String)) (ch : List RbxNode) (k : Nat),
    addFoldN as' (RbxNode.mk i c n ps ch, k) =
      (RbxNode.mk i c n ps (addFoldCh i as' (ch, k)).1, (addFoldCh i as' (ch, k)).2) := by
  induction as' with
  | nil => intro i c n ps ch k; rfl
  | cons a as ih =>
    intro i c n ps ch k
    show addFoldN as (addNode a.1 (reifyNode k a.2).1 (RbxNode.mk i c n ps ch),
        (reifyNode k a.2).2) = _
    rw [addNode, ih]
    rfl

theorem fieldsAfter_noop (us : List (RbxId × String × List (String × String)))
    (i : RbxId) : ∀ cp, (∀ u, u ∈ us → u.1 ≠ i) → fieldsAfter us i cp = cp := by
  induction us with
  | nil => intro cp _; rfl
  | cons u us ih =>
    intro cp h
    show fieldsAfter us i (if u.1 = i then (u.2.1, u.2.2) else cp) = cp
    rw [if_neg (h u (by simp))]
    exact ih cp (fun v hv => h v (by simp [hv]))

theorem removeList_append (id : RbxId) (l1 l2 : List RbxNode) :
    removeList id (l1 ++ l2) = removeList id l1 ++ removeList id l2 := by
  induction l1 with
  | nil => rfl
  | cons x xs ih =>
    show removeList id (x :: (xs ++ l2)) = _
    rw [removeList, removeList]
    cases removeNode id x with
    | none => exact ih
    | some y => rw [ih]; rfl

theorem remFoldL_content_append (rs : List RbxId) :
    ∀ (l1 l2 : List RbxNode),
    remFoldL rs (l1 ++ l2) = remFoldL rs l1 ++ remFoldL rs l2 := by
  induction rs with
  | nil => intro l1 l2; rfl
  | cons id rs ih =>
    intro l1 l2
    show remFoldL rs (removeList id (l1 ++ l2)) = _
    rw [removeList_append, ih]
    rfl

theorem remFoldL_ids_subset (rs : List RbxId) :
    ∀ (l : List RbxNode) (j : RbxId),
    j ∈ nodeIdsList (remFoldL rs l) → j ∈ nodeIdsList l := by
  induction rs with
  | nil => intro l j hj; exact hj
  | cons id rs ih =>
    intro l j hj
    exact removeList_ids_subset l id j (ih (removeList id l) j hj)

theorem remFoldL_noop (rs : List RbxId) :
    ∀ (l : List RbxNode), (∀ id, id ∈ rs → id ∉ nodeIdsList l) → remFoldL rs l = l := by
  induction rs with
  | nil => intro l _; rfl
  | cons id rs ih =>
    intro l h
    show remFoldL rs (removeList id l) = l
    rw [removeList_noop l id (h id (by simp))]
    exact ih l (fun j hj => h j (by simp [hj]))

theorem updFoldL_cons (us : List (RbxId × String × List (String × String))) :
    ∀ (x : RbxNode) (xs : List RbxNode),
    updFoldL us (x :: xs) = updFoldN us x :: updFoldL us xs := by
  induction us with
  | nil => intro x xs; rfl
  | cons u us ih =>
    intro x xs
    show updFoldL us (updateList u.1 u.2.1 u.2.2 (x :: xs)) = _
    rw [updateList, ih]
    rfl

theorem updFoldN_noop (us : List (RbxId × String × List (String × String))) :
    ∀ (x : RbxNode), (∀ u, u ∈ us → u.1 ∉ nodeIds x) → updFoldN us x = x := by
  induction us with
  | nil => intro x _; rfl
  | cons u us ih =>
    intro x h
    show updFoldN us (updateNode u.1 u.2.1 u.2.2 x) = x
    rw [updateNode_noop x u.1 u.2.1 u.2.2 (h u (by simp))]
    exact ih x (fun v hv => h v (by simp [hv]))

theorem updFoldL_noop (us : List (RbxId × String × List (String × String))) :
    ∀ (l : List RbxNode), (∀ u, u ∈ us → u.1 ∉ nodeIdsList l) → updFoldL us l = l := by
  induction us with
  | nil => intro l _; rfl
  | cons u us ih =>
    intro l h
    show updFoldL us (updateList u.1 u.2.1 u.2.2 l) = l
    rw [updateList_noop l u.1 u.2.1 u.2.2 (h u (by simp))]
    exact ih l (fun v hv => h v (by simp [hv]))

theorem updFoldN_ids (us : List (RbxId × String × List (String × String))) :
    ∀ (x : RbxNode), nodeIds (updFoldN us x) = nodeIds x := by
  induction us with
  | nil => intro x; rfl
  | cons u us ih =>
    intro x
    show nodeIds (updFoldN us (updateNode u.1 u.2.1 u.2.2 x)) = _
    rw [ih, nodeIds_updateNode]

theorem remFold_root_survives (rs : List RbxId) :
    ∀ (x : RbxNode), (∀ id, id ∈ rs → id ≠ x.nodeId) →
    ∃ y, remFold rs (some x) = some y ∧ y.nodeId = x.nodeId ∧
      (∀ j, j ∈ nodeIds y → j ∈ nodeIds x) := by
  induction rs with
  | nil => intro x _; exact ⟨x, rfl, rfl, fun j hj => hj⟩
  | cons id rs ih =>
    intro x h
    cases x with
    | mk i c n ps ch =>
      have h1 : id ≠ i := h id (by simp)
      have hstep : removeNode id (RbxNode.mk i c n ps ch) =
          some (RbxNode.mk i c n ps (removeList id ch)) := by
        rw [removeNode, if_neg (fun he => h1 he.symm)]
      have hrec := ih (RbxNode.mk i c n ps (removeList id ch))
        (fun j hj => h j (by simp [hj]))
      obtain ⟨y, hy1, hy2, hy3⟩ := hrec
      refine ⟨y, ?_, hy2, ?_⟩
      · show remFold rs ((some (RbxNode.mk i c n ps ch)).bind (removeNode id)) = some y
        rw [Option.some_bind, hstep]
        exact hy1
      · intro j hj
        have := hy3 j hj
        rw [nodeIds] at this ⊢
        rcases List.mem_cons.mp this with h2 | h3
        · exact List.mem_cons.mpr (Or.inl h2)
        · exact List.mem_cons.mpr (Or.inr (removeList_ids_subset ch id j h3))

theorem remFoldL_head (rs : List RbxId) :
    ∀ (x : RbxNode) (xs : List RbxNode),
    (∀ id, id ∈ rs → id ≠ x.nodeId) → (∀ id, id ∈ rs → id ∉ nodeIdsList xs) →
    ∃ y, remFold rs (some x) = some y ∧ remFoldL rs (x :: xs) = y :: xs := by
  induction rs with
  | nil => intro x xs _ _; exact ⟨x, rfl, rfl⟩
  | cons id rs ih =>
    intro x xs h1 h2
    cases x with
    | mk i c n ps ch =>
      have hne : id ≠ i := h1 id (by simp)
      have hstep : removeNode id (RbxNode.mk i c n ps ch) =
          some (RbxNode.mk i c n ps (removeList id ch)) := by
        rw [removeNode, if_neg (fun he => hne he.symm)]
      obtain ⟨y, hy1, hy2⟩ := ih (RbxNode.mk i c n ps (removeList id ch)) xs
        (fun j hj => h1 j (by simp [hj])) (fun j hj => h2 j (by simp [hj]))
      refine ⟨y, ?_, ?_⟩
      · show remFold rs ((some (RbxNode.mk i c n ps ch)).bind (removeNode id)) = some y
        rw [Option.some_bind, hstep]; exact hy1
      · show remFoldL rs (removeList id (RbxNode.mk i c n ps ch :: xs)) = y :: xs
        rw [removeList, hstep, removeList_noop xs id (h2 id (by simp))]
        exact hy2

theorem remFoldL_kill : ∀ (l2 : List RbxNode) (l1 : List RbxNode),
    (∀ id, id ∈ l2.map RbxNode.nodeId → id ∉ nodeIdsList l1) →
    (nodeIdsList l2).Nodup →
    remFoldL (l2.map RbxNode.nodeId) (l1 ++ l2) = l1 := by
  intro l2
  induction l2 with
  | nil => intro l1 _ _; simp [remFoldL]
  | cons x xs ih =>
    intro l1 h hnd
    show remFoldL (xs.map RbxNode.nodeId) (removeList x.nodeId (l1 ++ x :: xs)) = l1
    rw [removeList_append]
    rw [removeList_noop l1 x.nodeId (h x.nodeId (by simp))]
    have hxx : removeNode x.nodeId x = none := by
      cases x with
      | mk i c n ps ch => simp [removeNode, RbxNode.nodeId]
    have hxs : x.nodeId ∉ nodeIdsList xs := by
      rw [nodeIdsList, List.nodup_append] at hnd
      exact fun hmem => hnd.2.2 (nodeId_mem_nodeIds x) hmem
    have : removeList x.nodeId (x :: xs) = xs := by
      rw [removeList, hxx, removeList_noop xs x.nodeId hxs]
    rw [this]
    refine ih l1 (fun id hid => h id (by simp at hid ⊢; exact Or.inr hid)) ?_
    rw [nodeIdsList, List.nodup_append] at hnd
    exact hnd.2.1

theorem addFoldL_head (as' : List (RbxId × InstanceSnapshot)) :
    ∀ (x : RbxNode) (xs : List RbxNode) (k : Nat),
    (∀ a, a ∈ as' → a.1 ∉ nodeIdsList xs) →
    addFoldL as' (x :: xs, k) =
      ((addFoldN as' (x, k)).1 :: xs, (addFoldN as' (x, k)).2) := by
  induction as' with
  | nil => intro x xs k _; rfl
  | cons a as ih =>
    intro x xs k h
    show addFoldL as (addList a.1 (reifyNode k a.2).1 (x :: xs), (reifyNode k a.2).2) = _
    rw [addList, addList_noop xs a.1 (reifyNode k a.2).1 (h a (by simp))]
    exact ih _ xs _ (fun b hb => h b (by simp [hb]))

theorem addFoldL_tail (as' : List (RbxId × InstanceSnapshot)) :
    ∀ (x : RbxNode) (xs : List RbxNode) (k : Nat),
    (∀ a, a ∈ as' → a.1 ∉ nodeIds x) →
    addFoldL as' (x :: xs, k) =
      (x :: (addFoldL as' (xs, k)).1, (addFoldL as' (xs, k)).2) := by
  induction as' with
  | nil => intro x xs k _; rfl
  | cons a as ih =>
    intro x xs k h
    show addFoldL as (addList a.1 (reifyNode k a.2).1 (x :: xs), (reifyNode k a.2).2) = _
    rw [addList, addNode_noop x a.1 (reifyNode k a.2).1 (h a (by simp))]
    exact ih x _ _ (fun b hb => h b (by simp [hb]))

theorem addFoldCh_noself (i : RbxId) (as' : List (RbxId × InstanceSnapshot)) :
    ∀ (x : List RbxNode × Nat), (∀ a, a ∈ as' → i ≠ a.1) →
    addFoldCh i as' x = addFoldL as' x := by
  induction as' with
  | nil => intro x _; rfl
  | cons a as ih =>
    intro x h
    show addFoldCh i as (addList a.1 (reifyNode x.2 a.2).1 x.1 ++
      (if i = a.1 then [(reifyNode x.2 a.2).1] else []), (reifyNode x.2 a.2).2) = _
    rw [if_neg (h a (by simp)), List.append_nil]
    exact ih _ (fun b hb => h b (by simp [hb]))

theorem addFoldCh_self (i : RbxId) : ∀ (snaps : List InstanceSnapshot)
    (l : List RbxNode) (k : Nat), i ∉ nodeIdsList l → i < k →
    addFoldCh i (snaps.map (fun s => (i, s))) (l, k) =
      (l ++ (reifyList k snaps).1, (reifyList k snaps).2) := by
  intro snaps
  induction snaps with
  | nil => intro l k _ _; simp [addFoldCh, reifyList]
  | cons s ss ih =>
    intro l k hni hlt
    show addFoldCh i (ss.map (fun s => (i, s)))
      (addList i (reifyNode k s).1 l ++ (if i = i then [(reifyNode k s).1] else []),
        (reifyNode k s).2) = _
    rw [if_pos rfl, addList_noop l i (reifyNode k s).1 hni]
    obtain ⟨_, hk2, hk3, _⟩ := reifyNode_facts s k
    have hni' : i ∉ nodeIdsList (l ++ [(reifyNode k s).1]) := by
      rw [nodeIdsList_append]
      intro hmem
      rcases List.mem_append.mp hmem with h1 | h2
      · exact hni h1
      · rw [nodeIdsList, nodeIdsList, List.append_nil] at h2
        obtain ⟨h3, _⟩ := hk3 i h2
        exact absurd (Nat.lt_of_lt_of_le hlt h3) (Nat.lt_irrefl i)
    have := ih (l ++ [(reifyNode k s).1]) (reifyNode k s).2 hni'
      (Nat.lt_trans hlt hk2)
    rw [this]
    rw [reifyList]
    simp [List.append_assoc]

theorem addFoldN_facts (as' : List (RbxId × InstanceSnapshot)) :
    ∀ (x : RbxNode) (k : Nat),
    k ≤ (addFoldN as' (x, k)).2 ∧
    (∀ j, j ∈ nodeIds (addFoldN as' (x, k)).1 →
      j ∈ nodeIds x ∨ (k ≤ j ∧ j < (addFoldN as' (x, k)).2)) := by
  induction as' with
  | nil => intro x k; exact ⟨Nat.le_refl k, fun j hj => Or.inl hj⟩
  | cons a as ih =>
    intro x k
    obtain ⟨hr1, hr2, hr3, _⟩ := reifyNode_facts a.2 k
    have hstep : addFoldN (a :: as) (x, k) =
        addFoldN as (addNode a.1 (reifyNode k a.2).1 x, (reifyNode k a.2).2) := rfl
    rw [hstep]
    obtain ⟨h1, h2⟩ := ih (addNode a.1 (reifyNode k a.2).1 x) (reifyNode k a.2).2
    refine ⟨Nat.le_trans (Nat.le_of_lt hr2) h1, ?_⟩
    intro j hj
    rcases h2 j hj with h3 | h4
    · rcases addNode_ids_subset x a.1 (reifyNode k a.2).1 j h3 with h5 | h6
      · exact Or.inl h5
      · obtain ⟨h7, h8⟩ := hr3 j h6
        exact Or.inr ⟨h7, Nat.lt_of_lt_of_le h8 h1⟩
    · exact Or.inr ⟨Nat.le_trans (Nat.le_of_lt hr2) h4.1, h4.2⟩

theorem addFoldL_facts (as' : List (RbxId × InstanceSnapshot)) :
    ∀ (l : List RbxNode) (k : Nat),
    k ≤ (addFoldL as' (l, k)).2 ∧
    (∀ j, j ∈ nodeIdsList (addFoldL as' (l, k)).1 →
      j ∈ nodeIdsList l ∨ (k ≤ j ∧ j < (addFoldL as' (l, k)).2)) := by
  induction as' with
  | nil => intro l k; exact ⟨Nat.le_refl k, fun j hj => Or.inl hj⟩
  | cons a as ih =>
    intro l k
    obtain ⟨hr1, hr2, hr3, _⟩ := reifyNode_facts a.2 k
    have hstep : addFoldL (a :: as) (l, k) =
        addFoldL as (addList a.1 (reifyNode k a.2).1 l, (reifyNode k a.2).2) := rfl
    rw [hstep]
    obtain ⟨h1, h2⟩ := ih (addList a.1 (reifyNode k a.2).1 l) (reifyNode k a.2).2
    refine ⟨Nat.le_trans (Nat.le_of_lt hr2) h1, ?_⟩
    intro j hj
    rcases h2 j hj with h3 | h4
    · rcases addList_ids_subset l a.1 (reifyNode k a.2).1 j h3 with h5 | h6
      · exact Or.inl h5
      · obtain ⟨h7, h8⟩ := hr3 j h6
        exact Or.inr ⟨h7, Nat.lt_of_lt_of_le h8 h1⟩
    · exact Or.inr ⟨Nat.le_trans (Nat.le_of_lt hr2) h4.1, h4.2⟩

theorem stripList_append (l1 l2 : List RbxNode) :
    stripList (l1 ++ l2) = stripList l1 ++ stripList l2 := by
  induction l1 with
  | nil => rfl
  | cons x xs ih =>
    show stripNode x :: stripList (xs ++ l2) = _
    rw [ih]
    rfl

theorem zip_take_left (l2 : List InstanceSnapshot) :
    ∀ (l1 : List RbxNode), l1.zip l2 = (l1.take l2.length).zip l2 := by
  induction l2 with
  | nil => intro l1; simp
  | cons b bs ih =>
    intro l1
    cases l1 with
    | nil => simp
    | cons x xs =>
      show (x, b) :: xs.zip bs = (x, b) :: (xs.take bs.length).zip bs
      rw [ih xs]

theorem removesOf_ite_update (b : Prop) [Decidable b] (i : RbxId) (c' : String)
    (ps' : List (String × String)) :
    removesOf (if b then [PatchOp.update i c' ps'] else []) = [] := by
  by_cases h : b <;> simp [h, removesOf]

theorem updatesOf_ite_update (b : Prop) [Decidable b] (i : RbxId) (c' : String)
    (ps' : List (String × String)) :
    updatesOf (if b then [PatchOp.update i c' ps'] else []) =
      (if b then [(i, c', ps')] else []) := by
  by_cases h : b <;> simp [h, updatesOf]

theorem addsOf_ite_update (b : Prop) [Decidable b] (i : RbxId) (c' : String)
    (ps' : List (String × String)) :
    addsOf (if b then [PatchOp.update i c' ps'] else []) = [] := by
  by_cases h : b <;> simp [h, addsOf]

theorem diffSome_targets : ∀ (r : RbxNode) (B : InstanceSnapshot),
    (∀ id, id ∈ removesOf (diffSome r B) → id ∈ nodeIdsList r.children) ∧
    (∀ u, u ∈ updatesOf (diffSome r B) → u.1 ∈ nodeIds r) ∧
    (∀ a, a ∈ addsOf (diffSome r B) → a.1 ∈ nodeIds r) := by
  intro r
  induction r using RbxNode.indOn with
  | h i c n ps ch ih =>
    have hk : ∀ (l : List RbxNode), (∀ x, x ∈ l → x ∈ ch) →
        ∀ (cB' : List InstanceSnapshot),
        (∀ id, id ∈ removesOf (diffKids i l cB') → id ∈ nodeIdsList l) ∧
        (∀ u, u ∈ updatesOf (diffKids i l cB') → u.1 ∈ nodeIdsList l) ∧
        (∀ a, a ∈ addsOf (diffKids i l cB') → a.1 = i ∨ a.1 ∈ nodeIdsList l) := by
      intro l
      induction l with
      | nil =>
        intro _ cB'
        refine ⟨?_, ?_, ?_⟩
        · intro id hid
          rw [show diffKids i [] cB' = cB'.map (PatchOp.add i) from rfl,
            removesOf_map_add] at hid
          exact absurd hid (by simp)
        · intro u hu
          rw [show diffKids i [] cB' = cB'.map (PatchOp.add i) from rfl,
            updatesOf_map_add] at hu
          exact absurd hu (by simp)
        · intro a ha
          rw [show diffKids i [] cB' = cB'.map (PatchOp.add i) from rfl,
            addsOf_map_add] at ha
          rcases List.mem_map.mp ha with ⟨s, _, hs⟩
          exact Or.inl (by rw [← hs])
      | cons o os ihl =>
        intro hsub cB'
        cases cB' with
        | nil =>
          refine ⟨?_, ?_, ?_⟩
          · intro id hid
            rw [show diffKids i (o :: os) [] =
                (o :: os).map (fun x => PatchOp.remove x.nodeId) from rfl,
              removesOf_map_remove] at hid
            rcases List.mem_map.mp hid with ⟨x, hx, hxq⟩
            rw [← hxq]
            exact (mem_nodeIdsList _ _).mpr ⟨x, hx, nodeId_mem_nodeIds x⟩
          · intro u hu
            rw [show diffKids i (o :: os) [] =
                (o :: os).map (fun x => PatchOp.remove x.nodeId) from rfl,
              updatesOf_map_remove] at hu
            exact absurd hu (by simp)
          · intro a ha
            rw [show diffKids i (o :: os) [] =
                (o :: os).map (fun x => PatchOp.remove x.nodeId) from rfl,
              addsOf_map_remove] at ha
            exact absurd ha (by simp)
        | cons b bs =>
          have hstep : diffKids i (o :: os) (b :: bs) =
              diffSome o b ++ diffKids i os bs := rfl
          obtain ⟨ho1, ho2, ho3⟩ := ih o (hsub o (by simp)) b
          obtain ⟨hr1, hr2, hr3⟩ := ihl (fun y hy => hsub y (by simp [hy])) bs
          refine ⟨?_, ?_, ?_⟩
          · intro id hid
            rw [hstep, removesOf_append] at hid
            rw [nodeIdsList]
            rcases List.mem_append.mp hid with h1 | h2
            · have := ho1 id h1
              refine List.mem_append.mpr (Or.inl ?_)
              cases o with
              | mk io co no pso cho =>
                rw [nodeIds]
                exact List.mem_cons.mpr (Or.inr (by simpa [RbxNode.children] using this))
            · exact List.mem_append.mpr (Or.inr (hr1 id h2))
          · intro u hu
            rw [hstep, updatesOf_append] at hu
            rw [nodeIdsList]
            rcases List.mem_append.mp hu with h1 | h2
            · exact List.mem_append.mpr (Or.inl (ho2 u h1))
            · exact List.mem_append.mpr (Or.inr (hr2 u h2))
          · intro a ha
            rw [hstep, addsOf_append] at ha
            rcases List.mem_append.mp ha with h1 | h2
            · exact Or.inr (by rw [nodeIdsList]; exact List.mem_append.mpr (Or.inl (ho3 a h1)))
            · rcases hr3 a h2 with h3 | h4
              · exact Or.inl h3
              · exact Or.inr (by rw [nodeIdsList]; exact List.mem_append.mpr (Or.inr h4))
    intro B
    cases B with
    | mk c' n' ps' cB =>
      have hstep : diffSome (RbxNode.mk i c n ps ch) (InstanceSnapshot.mk c' n' ps' cB) =
          (if c ≠ c' ∨ ps ≠ ps' then [PatchOp.update i c' ps'] else [])
          ++ diffKids i ch cB := by rw [diffSome]
      obtain ⟨hk1, hk2, hk3⟩ := hk ch (fun x hx => hx) cB
      refine ⟨?_, ?_, ?_⟩
      · intro id hid
        rw [hstep, removesOf_append, removesOf_ite_update] at hid
        rw [List.nil_append] at hid
        simpa [RbxNode.children] using hk1 id hid
      · intro u hu
        rw [hstep, updatesOf_append, updatesOf_ite_update] at hu
        rcases List.mem_append.mp hu with h1 | h2
        · rw [nodeIds]
          refine List.mem_cons.mpr (Or.inl ?_)
          by_cases hc : c ≠ c' ∨ ps ≠ ps'
          · rw [if_pos hc] at h1
            simp only [List.mem_singleton] at h1
            rw [h1]
          · rw [if_neg hc] at h1
            exact absurd h1 (by simp)
        · rw [nodeIds]
          exact List.mem_cons.mpr (Or.inr (hk2 u h2))
      · intro a ha
        rw [hstep, addsOf_append, addsOf_ite_update] at ha
        rw [List.nil_append] at ha
        rcases hk3 a ha with h1 | h2
        · rw [nodeIds, h1]; exact List.mem_cons.mpr (Or.inl rfl)
        · rw [nodeIds]; exact List.mem_cons.mpr (Or.inr h2)

theorem diffKids_targets (pid : RbxId) : ∀ (ch : List RbxNode) (cB : List InstanceSnapshot),
    (∀ id, id ∈ removesOf (diffKids pid ch cB) → id ∈ nodeIdsList ch) ∧
    (∀ u, u ∈ updatesOf (diffKids pid ch cB) → u.1 ∈ nodeIdsList ch) ∧
    (∀ a, a ∈ addsOf (diffKids pid ch cB) → a.1 = pid ∨ a.1 ∈ nodeIdsList ch) := by
  intro ch
  induction ch with
  | nil =>
    intro cB
    refine ⟨?_, ?_, ?_⟩
    · intro id hid
      rw [show diffKids pid [] cB = cB.map (PatchOp.add pid) from rfl,
        removesOf_map_add] at hid
      exact absurd hid (by simp)
    · intro u hu
      rw [show diffKids pid [] cB = cB.map (PatchOp.add pid) from rfl,
        updatesOf_map_add] at hu
      exact absurd hu (by simp)
    · intro a ha
      rw [show diffKids pid [] cB = cB.map (PatchOp.add pid) from rfl,
        addsOf_map_add] at ha
      rcases List.mem_map.mp ha with ⟨s, _, hs⟩
      exact Or.inl (by rw [← hs])
  | cons o os ih =>
    intro cB
    cases cB with
    | nil =>
      refine ⟨?_, ?_, ?_⟩
      · intro id hid
        rw [show diffKids pid (o :: os) [] =
            (o :: os).map (fun x => PatchOp.remove x.nodeId) from rfl,
          removesOf_map_remove] at hid
        rcases List.mem_map.mp hid with ⟨x, hx, hxq⟩
        rw [← hxq]
        exact (mem_nodeIdsList _ _).mpr ⟨x, hx, nodeId_mem_nodeIds x⟩
      · intro u hu
        rw [show diffKids pid (o :: os) [] =
            (o :: os).map (fun x => PatchOp.remove x.nodeId) from rfl,
          updatesOf_map_remove] at hu
        exact absurd hu (by simp)
      · intro a ha
        rw [show diffKids pid (o :: os) [] =
            (o :: os).map (fun x => PatchOp.remove x.nodeId) from rfl,
          addsOf_map_remove] at ha
        exact absurd ha (by simp)
    | cons b bs =>
      have hstep : diffKids pid (o :: os) (b :: bs) =
          diffSome o b ++ diffKids pid os bs := rfl
      obtain ⟨ho1, ho2, ho3⟩ := diffSome_targets o b
      obtain ⟨hr1, hr2, hr3⟩ := ih bs
      refine ⟨?_, ?_, ?_⟩
      · intro id hid
        rw [hstep, removesOf_append] at hid
        rw [nodeIdsList]
        rcases List.mem_append.mp hid with h1 | h2
        · have := ho1 id h1
          refine List.mem_append.mpr (Or.inl ?_)
          cases o with
          | mk io co no pso cho =>
            rw [nodeIds]
            exact List.mem_cons.mpr (Or.inr (by simpa [RbxNode.children] using this))
        · exact List.mem_append.mpr (Or.inr (hr1 id h2))
      · intro u hu
        rw [hstep, updatesOf_append] at hu
        rw [nodeIdsList]
        rcases List.mem_append.mp hu with h1 | h2
        · exact List.mem_append.mpr (Or.inl (ho2 u h1))
        · exact List.mem_append.mpr (Or.inr (hr2 u h2))
      · intro a ha
        rw [hstep, addsOf_append] at ha
        rcases List.mem_append.mp ha with h1 | h2
        · exact Or.inr (by rw [nodeIdsList]; exact List.mem_append.mpr (Or.inl (ho3 a h1)))
        · rcases hr3 a h2 with h3 | h4
          · exact Or.inl h3
          · exact Or.inr (by rw [nodeIdsList]; exact List.mem_append.mpr (Or.inr h4))

theorem remFoldL_head_noop (rs : List RbxId) :
    ∀ (x : RbxNode) (xs : List RbxNode), (∀ id, id ∈ rs → id ∉ nodeIds x) →
    remFoldL rs (x :: xs) = x :: remFoldL rs xs := by
  induction rs with
  | nil => intro x xs _; rfl
  | cons id rs ih =>
    intro x xs h
    show remFoldL rs (removeList id (x :: xs)) = _
    rw [removeList, removeNode_noop x id (h id (by simp))]
    exact ih x (removeList id xs) (fun j hj => h j (by simp [hj]))

theorem updFoldL_ids (us : List (RbxId × String × List (String × String))) :
    ∀ (l : List RbxNode), nodeIdsList (updFoldL us l) = nodeIdsList l := by
  intro l
  induction l with
  | nil =>
    have : updFoldL us [] = [] := by
      induction us with
      | nil => rfl
      | cons u us ih => exact ih
    rw [this]
  | cons x xs ih =>
    rw [updFoldL_cons, nodeIdsList, nodeIdsList, updFoldN_ids, ih]

theorem zipBind_targets : ∀ (l : List RbxNode) (cB : List InstanceSnapshot),
    (∀ id, id ∈ removesOf ((l.zip cB).bind fun ob => diffSome ob.1 ob.2) →
       id ∈ nodeIdsList l) ∧
    (∀ u, u ∈ updatesOf ((l.zip cB).bind fun ob => diffSome ob.1 ob.2) →
       u.1 ∈ nodeIdsList l) ∧
    (∀ a, a ∈ addsOf ((l.zip cB).bind fun ob => diffSome ob.1 ob.2) →
       a.1 ∈ nodeIdsList l) := by
  intro l
  induction l with
  | nil =>
    intro cB
    refine ⟨?_, ?_, ?_⟩ <;> intro z hz <;> simp [removesOf, updatesOf, addsOf] at hz
  | cons o os ih =>
    intro cB
    cases cB with
    | nil =>
      refine ⟨?_, ?_, ?_⟩ <;> intro z hz <;> simp [removesOf, updatesOf, addsOf] at hz
    | cons b bs =>
      have hQ : (((o :: os).zip (b :: bs)).bind fun ob => diffSome ob.1 ob.2) =
          diffSome o b ++ ((os.zip bs).bind fun ob => diffSome ob.1 ob.2) := rfl
      obtain ⟨ho1, ho2, ho3⟩ := diffSome_targets o b
      obtain ⟨hr1, hr2, hr3⟩ := ih bs
      have hsub : ∀ j, j ∈ nodeIdsList o.children → j ∈ nodeIds o := by
        cases o with
        | mk io co no pso cho =>
          intro j hj
          rw [nodeIds]
          exact List.mem_cons.mpr (Or.inr (by simpa [RbxNode.children] using hj))
      refine ⟨?_, ?_, ?_⟩
      · intro id hid
        rw [hQ, removesOf_append] at hid
        rw [nodeIdsList]
        rcases List.mem_append.mp hid with h1 | h2
        · exact List.mem_append.mpr (Or.inl (hsub id (ho1 id h1)))
        · exact List.mem_append.mpr (Or.inr (hr1 id h2))
      · intro u hu
        rw [hQ, updatesOf_append] at hu
        rw [nodeIdsList]
        rcases List.mem_append.mp hu with h1 | h2
        · exact List.mem_append.mpr (Or.inl (ho2 u h1))
        · exact List.mem_append.mpr (Or.inr (hr2 u h2))
      · intro a ha
        rw [hQ, addsOf_append] at ha
        rw [nodeIdsList]
        rcases List.mem_append.mp ha with h1 | h2
        · exact List.mem_append.mpr (Or.inl (ho3 a h1))
        · exact List.mem_append.mpr (Or.inr (hr3 a h2))

theorem alignList_take : ∀ (cB : List InstanceSnapshot) (l : List RbxNode),
    alignList l cB = true → alignList (l.take cB.length) cB = true := by
  intro cB
  induction cB with
  | nil =>
    intro l _
    cases l with
    | nil => rfl
    | cons x xs => rfl
  | cons b bs ih =>
    intro l hal
    cases l with
    | nil => rfl
    | cons x xs =>
      rw [alignList] at hal
      rw [List.length_cons, List.take_succ_cons, alignList]
      rw [Bool.and_eq_true] at hal ⊢
      exact ⟨hal.1, ih xs hal.2⟩

/-- The three patch phases, applied to an optional root with a fresh-id
counter: exactly the executed part of `applyOps`. -/
def pipeline (p : List PatchOp) (x : Option RbxNode) (k : Nat) :
    Option RbxNode × Nat :=
  addFold (addsOf p) (updFold (updatesOf p) (remFold (removesOf p) x), k)

/-- The three patch phases at the level of a child list. -/
def pipelineL (p : List PatchOp) (l : List RbxNode) (k : Nat) :
    List RbxNode × Nat :=
  addFoldL (addsOf p) (updFoldL (updatesOf p) (remFoldL (removesOf p) l), k)

theorem applyOps_pipeline (t : RbxTree) (p : List PatchOp) :
    applyOps t p = ⟨(pipeline p t.root t.nextId).1, (pipeline p t.root t.nextId).2⟩ := rfl

theorem diffSome_removes_safe (o : RbxNode) (b : InstanceSnapshot)
    (hnd : (nodeIds o).Nodup) :
    ∀ id, id ∈ removesOf (diffSome o b) → id ∈ nodeIds o ∧ id ≠ o.nodeId := by
  intro id hid
  obtain ⟨ht1, _, _⟩ := diffSome_targets o b
  have h1 := ht1 id hid
  cases o with
  | mk io co no pso cho =>
    simp only [RbxNode.children] at h1
    rw [nodeIds, List.nodup_cons] at hnd
    refine ⟨?_, ?_⟩
    · rw [nodeIds]; exact List.mem_cons.mpr (Or.inr h1)
    · intro he
      rw [RbxNode.nodeId] at he
      exact hnd.1 (he ▸ h1)

theorem roundtripList
    (ch0 : List RbxNode)
    (ihn : ∀ x, x ∈ ch0 → ∀ (B : InstanceSnapshot) (k : Nat),
      (nodeIds x).Nodup → (∀ j, j ∈ nodeIds x → j < k) → alignNode x B = true →
      ∃ r' k', pipeline (diffSome x B) (some x) k = (some r', k') ∧
        stripNode r' = B ∧ k ≤ k' ∧
        (∀ j, j ∈ nodeIds r' → j ∈ nodeIds x ∨ (k ≤ j ∧ j < k'))) :
    ∀ (l : List RbxNode), (∀ x, x ∈ l → x ∈ ch0) →
    ∀ (cB : List InstanceSnapshot) (k0 : Nat),
    l.length ≤ cB.length →
    (nodeIdsList l).Nodup →
    (∀ j, j ∈ nodeIdsList l → j < k0) →
    alignList l cB = true →
    ∃ l' k', pipelineL ((l.zip cB).bind fun ob => diffSome ob.1 ob.2) l k0 = (l', k') ∧
      stripList l' = cB.take l.length ∧ k0 ≤ k' ∧
      (∀ j, j ∈ nodeIdsList l' → j ∈ nodeIdsList l ∨ (k0 ≤ j ∧ j < k')) := by
  intro l
  induction l with
  | nil =>
    intro _ cB k0 _ _ _ _
    refine ⟨[], k0, rfl, by simp [stripList], Nat.le_refl k0, ?_⟩
    intro j hj
    rw [nodeIdsList] at hj
    exact absurd hj (by simp)
  | cons o os ihl =>
    intro hsub cB k0 hlen hnd hbd hal
    cases cB with
    | nil => rw [List.length_cons] at hlen; exact absurd hlen (by simp)
    | cons b bs =>
      -- structure of the hypotheses
      rw [nodeIdsList, List.nodup_append] at hnd
      obtain ⟨hndo, hndos, hdisj⟩ := hnd
      have bdo : ∀ j, j ∈ nodeIds o → j < k0 := fun j hj =>
        hbd j (by rw [nodeIdsList]; exact List.mem_append.mpr (Or.inl hj))
      have bdos : ∀ j, j ∈ nodeIdsList os → j < k0 := fun j hj =>
        hbd j (by rw [nodeIdsList]; exact List.mem_append.mpr (Or.inr hj))
      rw [alignList, Bool.and_eq_true] at hal
      obtain ⟨halo, halos⟩ := hal
      rw [List.length_cons, List.length_cons, Nat.succ_le_succ_iff] at hlen
      -- the patch splits into the head piece and the tail pieces
      have hQ : (((o :: os).zip (b :: bs)).bind fun ob => diffSome ob.1 ob.2) =
          diffSome o b ++ ((os.zip bs).bind fun ob => diffSome ob.1 ob.2) := rfl
      obtain ⟨hPu', hPa'⟩ := (diffSome_targets o b).2
      have hPrm := diffSome_removes_safe o b hndo
      obtain ⟨hRr, hRu, hRa⟩ := zipBind_targets os bs
      -- remove phase
      obtain ⟨o₁, hfold1, hremL⟩ := remFoldL_head (removesOf (diffSome o b)) o os
        (fun id hid => (hPrm id hid).2)
        (fun id hid => fun hmem => hdisj (hPrm id hid).1 hmem)
      obtain ⟨y, hy1, hy2, hy3⟩ := remFold_root_survives (removesOf (diffSome o b)) o
        (fun id hid => (hPrm id hid).2)
      have hoy : o₁ = y := Option.some.inj (hfold1.symm.trans hy1)
      subst hoy
      have hido1 : ∀ j, j ∈ nodeIds o₁ → j ∈ nodeIds o := hy3
      -- update phase heads
      set X := remFoldL (removesOf ((os.zip bs).bind fun ob => diffSome ob.1 ob.2)) os with hX
      have hXids : ∀ j, j ∈ nodeIdsList X → j ∈ nodeIdsList os :=
        fun j hj => remFoldL_ids_subset _ os j hj
      have hremR2 : remFoldL (removesOf ((os.zip bs).bind fun ob => diffSome ob.1 ob.2))
          (o₁ :: os) = o₁ :: X := by
        rw [remFoldL_head_noop]
        intro id hid hmem
        exact hdisj (hido1 id hmem) (hRr id hid)
      have o₂def : updFoldL (updatesOf (diffSome o b)) (o₁ :: X) =
          updFoldN (updatesOf (diffSome o b)) o₁ :: X := by
        rw [updFoldL_cons, updFoldL_noop]
        intro u hu hmem
        exact hdisj (hPu' u hu) (hXids u.1 hmem)
      set o₂ := updFoldN (updatesOf (diffSome o b)) o₁ with ho₂
      have hido2 : nodeIds o₂ = nodeIds o₁ := updFoldN_ids _ o₁
      have hupdR : updFoldL (updatesOf ((os.zip bs).bind fun ob => diffSome ob.1 ob.2))
          (o₂ :: X) = o₂ ::
            updFoldL (updatesOf ((os.zip bs).bind fun ob => diffSome ob.1 ob.2)) X := by
        rw [updFoldL_cons, updFoldN_noop]
        intro u hu hmem
        rw [hido2] at hmem
        exact hdisj (hido1 u.1 hmem) (hRu u hu)
      set Y := updFoldL (updatesOf ((os.zip bs).bind fun ob => diffSome ob.1 ob.2)) X with hY
      have hYids : nodeIdsList Y = nodeIdsList X := updFoldL_ids _ X
      -- head piece through the node induction hypothesis
      obtain ⟨ro, k'o, hEq, hStrip, hMono, hIds⟩ :=
        ihn o (hsub o (by simp)) b k0 hndo bdo halo
      have hcomp : pipeline (diffSome o b) (some o) k0 =
          (some (addFoldN (addsOf (diffSome o b)) (o₂, k0)).1,
           (addFoldN (addsOf (diffSome o b)) (o₂, k0)).2) := by
        show addFold _ (updFold _ (remFold _ (some o)), k0) = _
        rw [hfold1, updFold_some, addFold_some]
      set o₃ := (addFoldN (addsOf (diffSome o b)) (o₂, k0)).1 with ho₃
      set k₁ := (addFoldN (addsOf (diffSome o b)) (o₂, k0)).2 with hk₁
      have hro : ro = o₃ ∧ k'o = k₁ := by
        have := hEq.symm.trans hcomp
        exact ⟨Option.some.inj (congrArg Prod.fst this), congrArg Prod.snd this⟩
      rw [hro.1] at hStrip hIds
      rw [hro.2] at hMono hIds
      -- add phase
      have haddP : addFoldL (addsOf (diffSome o b)) (o₂ :: Y, k0) = (o₃ :: Y, k₁) := by
        rw [addFoldL_head]
        intro a ha hmem
        rw [hYids] at hmem
        exact hdisj (hPa' a ha) (hXids a.1 hmem)
      have haddR : ∀ (k' : Nat), addFoldL ((addsOf ((os.zip bs).bind fun ob => diffSome ob.1 ob.2)))
          (o₃ :: Y, k') = (o₃ :: (addFoldL (addsOf ((os.zip bs).bind fun ob => diffSome ob.1 ob.2)) (Y, k')).1,
            (addFoldL (addsOf ((os.zip bs).bind fun ob => diffSome ob.1 ob.2)) (Y, k')).2) := by
        intro k'
        rw [addFoldL_tail]
        intro a ha hmem
        rcases hIds a.1 hmem with h1 | h2
        · exact hdisj h1 (hRa a ha)
        · exact absurd (bdos a.1 (hRa a ha)) (Nat.not_lt_of_le h2.1)
      -- tail through the list induction hypothesis
      obtain ⟨l'', k'', hEqT, hStripT, hMonoT, hIdsT⟩ :=
        ihl (fun x hx => hsub x (by simp [hx])) bs k₁ hlen hndos
          (fun j hj => Nat.lt_of_lt_of_le (bdos j hj) hMono) halos
      have hEqT' : addFoldL (addsOf ((os.zip bs).bind fun ob => diffSome ob.1 ob.2)) (Y, k₁)
          = (l'', k'') := hEqT
      refine ⟨o₃ :: l'', k'', ?_, ?_, ?_, ?_⟩
      · show addFoldL _ (updFoldL _ (remFoldL _ (o :: os)), k0) = _
        rw [hQ, removesOf_append, updatesOf_append, addsOf_append]
        rw [remFoldL_append_targets, hremL, hremR2]
        rw [updFoldL_append_targets, o₂def, hupdR]
        rw [addFoldL_append_targets, haddP, haddR k₁, hEqT']
      · rw [stripList, hStrip, hStripT]
        rfl
      · exact Nat.le_trans hMono hMonoT
      · intro j hj
        rw [nodeIdsList] at hj
        rcases List.mem_append.mp hj with h1 | h2
        · rcases hIds j h1 with h3 | h4
          · exact Or.inl (by rw [nodeIdsList]; exact List.mem_append.mpr (Or.inl h3))
          · exact Or.inr ⟨h4.1, Nat.lt_of_lt_of_le h4.2 hMonoT⟩
        · rcases hIdsT j h2 with h3 | h4
          · exact Or.inl (by rw [nodeIdsList]; exact List.mem_append.mpr (Or.inr h3))
          · exact Or.inr ⟨Nat.le_trans hMono h4.1, h4.2⟩

theorem roundtripNode : ∀ (r : RbxNode) (B : InstanceSnapshot) (k : Nat),
    (nodeIds r).Nodup → (∀ j, j ∈ nodeIds r → j < k) → alignNode r B = true →
    ∃ r' k', pipeline (diffSome r B) (some r) k = (some r', k') ∧
      stripNode r' = B ∧ k ≤ k' ∧
      (∀ j, j ∈ nodeIds r' → j ∈ nodeIds r ∨ (k ≤ j ∧ j < k')) := by
  intro r
  induction r using RbxNode.indOn with
  | h i c nm ps ch ih =>
    intro B k hnd hbd hal
    cases B with
    | mk c' nm' ps' cB =>
      rw [alignNode, Bool.and_eq_true, beq_iff_eq] at hal
      obtain ⟨hnm, halL⟩ := hal
      rw [nodeIds, List.nodup_cons] at hnd
      obtain ⟨hiNotin, hndL⟩ := hnd
      have hik : i < k := hbd i (by rw [nodeIds]; simp)
      have hbdL : ∀ j, j ∈ nodeIdsList ch → j < k := fun j hj =>
        hbd j (by rw [nodeIds]; exact List.mem_cons.mpr (Or.inr hj))
      have hP : diffSome (RbxNode.mk i c nm ps ch) (InstanceSnapshot.mk c' nm' ps' cB) =
          (if c ≠ c' ∨ ps ≠ ps' then [PatchOp.update i c' ps'] else [])
          ++ diffKids i ch cB := by
        rw [diffSome]
      by_cases hcase : ch.length ≤ cB.length
      · -- at least as many new children as old: trailing additions
        have hdropCh : ch.drop cB.length = [] := List.drop_eq_nil_of_le hcase
        have hK : diffKids i ch cB =
            ((ch.zip cB).bind fun ob => diffSome ob.1 ob.2)
            ++ (cB.drop ch.length).map (PatchOp.add i) := by
          rw [diffKids_closed, hdropCh]
          simp
        obtain ⟨hZr, hZu, hZa⟩ := zipBind_targets ch cB
        have hrs : removesOf (diffSome (RbxNode.mk i c nm ps ch)
            (InstanceSnapshot.mk c' nm' ps' cB)) =
            removesOf ((ch.zip cB).bind fun ob => diffSome ob.1 ob.2) := by
          rw [hP, hK, removesOf_append, removesOf_append, removesOf_ite_update,
            removesOf_map_add]
          simp
        have hus : updatesOf (diffSome (RbxNode.mk i c nm ps ch)
            (InstanceSnapshot.mk c' nm' ps' cB)) =
            (if c ≠ c' ∨ ps ≠ ps' then [(i, c', ps')] else [])
            ++ updatesOf ((ch.zip cB).bind fun ob => diffSome ob.1 ob.2) := by
          rw [hP, hK, updatesOf_append, updatesOf_append, updatesOf_ite_update,
            updatesOf_map_add]
          simp
        have has : addsOf (diffSome (RbxNode.mk i c nm ps ch)
            (InstanceSnapshot.mk c' nm' ps' cB)) =
            addsOf ((ch.zip cB).bind fun ob => diffSome ob.1 ob.2)
            ++ (cB.drop ch.length).map (fun s => (i, s)) := by
          rw [hP, hK, addsOf_append, addsOf_append, addsOf_ite_update, addsOf_map_add]
          simp
        obtain ⟨l', k₁, hEqL, hStripL, hMonoL, hIdsL⟩ :=
          roundtripList ch ih ch (fun x hx => hx) cB k hcase hndL hbdL halL
        have hrem : remFold (removesOf (diffSome (RbxNode.mk i c nm ps ch)
            (InstanceSnapshot.mk c' nm' ps' cB))) (some (RbxNode.mk i c nm ps ch)) =
            some (RbxNode.mk i c nm ps
              (remFoldL (removesOf ((ch.zip cB).bind fun ob => diffSome ob.1 ob.2)) ch)) := by
          rw [hrs]
          apply remFold_node
          intro id hid he
          exact hiNotin (he ▸ hZr id hid)
        have hfield : fieldsAfter (updatesOf (diffSome (RbxNode.mk i c nm ps ch)
            (InstanceSnapshot.mk c' nm' ps' cB))) i (c, ps) = (c', ps') := by
          rw [hus, fieldsAfter_append]
          have houter : ∀ cp, fieldsAfter
              (updatesOf ((ch.zip cB).bind fun ob => diffSome ob.1 ob.2)) i cp = cp := by
            intro cp
            apply fieldsAfter_noop
            intro u hu he
            exact hiNotin (he ▸ hZu u hu)
          rw [houter]
          by_cases hcc : c ≠ c' ∨ ps ≠ ps'
          · rw [if_pos hcc]
            simp [fieldsAfter]
          · rw [if_neg hcc]
            push_neg at hcc
            rw [hcc.1, hcc.2]
            rfl
        have hXsub : ∀ j, j ∈ nodeIdsList
            (remFoldL (removesOf ((ch.zip cB).bind fun ob => diffSome ob.1 ob.2)) ch) →
            j ∈ nodeIdsList ch := fun j hj => remFoldL_ids_subset _ ch j hj
        have hchupd : updFoldL (updatesOf (diffSome (RbxNode.mk i c nm ps ch)
            (InstanceSnapshot.mk c' nm' ps' cB)))
            (remFoldL (removesOf ((ch.zip cB).bind fun ob => diffSome ob.1 ob.2)) ch) =
            updFoldL (updatesOf ((ch.zip cB).bind fun ob => diffSome ob.1 ob.2))
            (remFoldL (removesOf ((ch.zip cB).bind fun ob => diffSome ob.1 ob.2)) ch) := by
          rw [hus, updFoldL_append_targets]
          congr 1
          by_cases hcc : c ≠ c' ∨ ps ≠ ps'
          · rw [if_pos hcc]
            apply updFoldL_noop
            intro u hu hmem
            simp only [List.mem_singleton] at hu
            rw [hu] at hmem
            exact hiNotin (hXsub i hmem)
          · rw [if_neg hcc]
            rfl
        have hupd : updFold (updatesOf (diffSome (RbxNode.mk i c nm ps ch)
            (InstanceSnapshot.mk c' nm' ps' cB)))
            (some (RbxNode.mk i c nm ps
              (remFoldL (removesOf ((ch.zip cB).bind fun ob => diffSome ob.1 ob.2)) ch))) =
            some (RbxNode.mk i c' nm ps'
              (updFoldL (updatesOf ((ch.zip cB).bind fun ob => diffSome ob.1 ob.2))
                (remFoldL (removesOf ((ch.zip cB).bind fun ob => diffSome ob.1 ob.2)) ch))) := by
          rw [updFold_some, updFoldN_node, hfield, hchupd]
        have hiNotinL' : i ∉ nodeIdsList l' := by
          intro hmem
          rcases hIdsL i hmem with h1 | h2
          · exact hiNotin h1
          · exact absurd hik (Nat.not_lt_of_le h2.1)
        have hadd : addFold (addsOf (diffSome (RbxNode.mk i c nm ps ch)
            (InstanceSnapshot.mk c' nm' ps' cB)))
            (some (RbxNode.mk i c' nm ps'
              (updFoldL (updatesOf ((ch.zip cB).bind fun ob => diffSome ob.1 ob.2))
                (remFoldL (removesOf ((ch.zip cB).bind fun ob => diffSome ob.1 ob.2)) ch))), k) =
            (some (RbxNode.mk i c' nm ps'
              (l' ++ (reifyList k₁ (cB.drop ch.length)).1)),
             (reifyList k₁ (cB.drop ch.length)).2) := by
          rw [addFold_some, addFoldN_node, has, addFoldCh_append_targets]
          have h1 : addFoldCh i (addsOf ((ch.zip cB).bind fun ob => diffSome ob.1 ob.2))
              (updFoldL (updatesOf ((ch.zip cB).bind fun ob => diffSome ob.1 ob.2))
                (remFoldL (removesOf ((ch.zip cB).bind fun ob => diffSome ob.1 ob.2)) ch), k)
              = (l', k₁) := by
            rw [addFoldCh_noself]
            · exact hEqL
            · intro a ha he
              exact hiNotin (he ▸ hZa a ha)
          rw [h1, addFoldCh_self i (cB.drop ch.length) l' k₁ hiNotinL'
            (Nat.lt_of_lt_of_le hik hMonoL)]
        obtain ⟨hre1, hre2, hre3, _⟩ := reifyList_facts (cB.drop ch.length) k₁
        refine ⟨RbxNode.mk i c' nm ps' (l' ++ (reifyList k₁ (cB.drop ch.length)).1),
          (reifyList k₁ (cB.drop ch.length)).2, ?_, ?_, ?_, ?_⟩
        · show addFold _ (updFold _ (remFold _ (some _)), k) = _
          rw [hrem, hupd, hadd]
        · rw [stripNode, stripList_append, hStripL, hre1, List.take_append_drop, hnm]
        · exact Nat.le_trans hMonoL hre2
        · intro j hj
          rw [nodeIds] at hj
          rcases List.mem_cons.mp hj with h1 | h2
          · exact Or.inl (by rw [h1, nodeIds]; simp)
          · rw [nodeIdsList_append] at h2
            rcases List.mem_append.mp h2 with h3 | h4
            · rcases hIdsL j h3 with h5 | h6
              · exact Or.inl (by rw [nodeIds]; exact List.mem_cons.mpr (Or.inr h5))
              · exact Or.inr ⟨h6.1, Nat.lt_of_lt_of_le h6.2 hre2⟩
            · obtain ⟨h5, h6⟩ := hre3 j h4
              exact Or.inr ⟨Nat.le_trans hMonoL h5, h6⟩
      · -- more old children than new: trailing removals
        have hcase' : cB.length < ch.length := Nat.lt_of_not_le hcase
        have hdropB : cB.drop ch.length = [] :=
          List.drop_eq_nil_of_le (Nat.le_of_lt hcase')
        have hK : diffKids i ch cB =
            ((ch.zip cB).bind fun ob => diffSome ob.1 ob.2)
            ++ (ch.drop cB.length).map (fun o => PatchOp.remove o.nodeId) := by
          rw [diffKids_closed, hdropB]
          simp
        have hzip : ch.zip cB = (ch.take cB.length).zip cB := zip_take_left cB ch
        have hTD : ch.take cB.length ++ ch.drop cB.length = ch :=
          List.take_append_drop _ ch
        have hndTD := hndL
        rw [← hTD, nodeIdsList_append, List.nodup_append] at hndTD
        obtain ⟨hndT, hndD, hdisjTD⟩ := hndTD
        have hTsub : ∀ j, j ∈ nodeIdsList (ch.take cB.length) → j ∈ nodeIdsList ch := by
          intro j hj
          rw [← hTD, nodeIdsList_append]
          exact List.mem_append.mpr (Or.inl hj)
        have hDsub : ∀ j, j ∈ nodeIdsList (ch.drop cB.length) → j ∈ nodeIdsList ch := by
          intro j hj
          rw [← hTD, nodeIdsList_append]
          exact List.mem_append.mpr (Or.inr hj)
        have hDmap : ∀ id, id ∈ (ch.drop cB.length).map RbxNode.nodeId →
            id ∈ nodeIdsList (ch.drop cB.length) := by
          intro id hid
          rcases List.mem_map.mp hid with ⟨x, hx, hxq⟩
          rw [← hxq]
          exact (mem_nodeIdsList _ _).mpr ⟨x, hx, nodeId_mem_nodeIds x⟩
        obtain ⟨hZr, hZu, hZa⟩ := zipBind_targets (ch.take cB.length) cB
        have hrs : removesOf (diffSome (RbxNode.mk i c nm ps ch)
            (InstanceSnapshot.mk c' nm' ps' cB)) =
            removesOf (((ch.take cB.length).zip cB).bind fun ob => diffSome ob.1 ob.2)
            ++ (ch.drop cB.length).map RbxNode.nodeId := by
          rw [hP, hK, hzip, removesOf_append, removesOf_append, removesOf_ite_update,
            removesOf_map_remove]
          simp
        have hus : updatesOf (diffSome (RbxNode.mk i c nm ps ch)
            (InstanceSnapshot.mk c' nm' ps' cB)) =
            (if c ≠ c' ∨ ps ≠ ps' then [(i, c', ps')] else [])
            ++ updatesOf (((ch.take cB.length).zip cB).bind fun ob => diffSome ob.1 ob.2) := by
          rw [hP, hK, hzip, updatesOf_append, updatesOf_append, updatesOf_ite_update,
            updatesOf_map_remove]
          simp
        have has : addsOf (diffSome (RbxNode.mk i c nm ps ch)
            (InstanceSnapshot.mk c' nm' ps' cB)) =
            addsOf (((ch.take cB.length).zip cB).bind fun ob => diffSome ob.1 ob.2) := by
          rw [hP, hK, hzip, addsOf_append, addsOf_append, addsOf_ite_update,
            addsOf_map_remove]
          simp
        have hlenT : (ch.take cB.length).length ≤ cB.length := by
          rw [List.length_take]
          exact Nat.min_le_left _ _
        have hTlen : (ch.take cB.length).length = cB.length := by
          rw [List.length_take]
          exact Nat.min_eq_left (Nat.le_of_lt hcase')
        have hbdT : ∀ j, j ∈ nodeIdsList (ch.take cB.length) → j < k :=
          fun j hj => hbdL j (hTsub j hj)
        obtain ⟨l', k₁, hEqL, hStripL, hMonoL, hIdsL⟩ :=
          roundtripList ch ih (ch.take cB.length)
            (fun x hx => List.take_subset _ ch hx) cB k hlenT hndT hbdT
            (alignList_take cB ch halL)
        rw [hTlen, List.take_length] at hStripL
        have hrem : remFold (removesOf (diffSome (RbxNode.mk i c nm ps ch)
            (InstanceSnapshot.mk c' nm' ps' cB))) (some (RbxNode.mk i c nm ps ch)) =
            some (RbxNode.mk i c nm ps
              (remFoldL (removesOf (((ch.take cB.length).zip cB).bind
                fun ob => diffSome ob.1 ob.2)) (ch.take cB.length))) := by
          rw [hrs]
          have h1 : remFold ((removesOf (((ch.take cB.length).zip cB).bind
              fun ob => diffSome ob.1 ob.2)) ++ (ch.drop cB.length).map RbxNode.nodeId)
              (some (RbxNode.mk i c nm ps ch)) =
              some (RbxNode.mk i c nm ps
                (remFoldL ((removesOf (((ch.take cB.length).zip cB).bind
                  fun ob => diffSome ob.1 ob.2)) ++ (ch.drop cB.length).map RbxNode.nodeId)
                  ch)) := by
            apply remFold_node
            intro id hid he
            rcases List.mem_append.mp hid with h2 | h3
            · exact hiNotin (he ▸ hTsub id (hZr id h2))
            · exact hiNotin (he ▸ hDsub id (hDmap id h3))
          rw [h1]
          congr 2
          rw [remFoldL_append_targets]
          have h2 : ∀ rs : List RbxId, (∀ id, id ∈ rs → id ∉ nodeIdsList (ch.drop cB.length)) →
              remFoldL rs ch = remFoldL rs (ch.take cB.length) ++ ch.drop cB.length := by
            intro rs hcond
            conv_lhs => rw [← hTD]
            rw [remFoldL_content_append, remFoldL_noop _ _ hcond]
          rw [h2 _ (fun id hid hmem => hdisjTD (hZr id hid) hmem)]
          apply remFoldL_kill
          · intro id hid hmem
            exact hdisjTD (remFoldL_ids_subset _ _ id hmem) (hDmap id hid)
          · exact hndD
        have hfield : fieldsAfter (updatesOf (diffSome (RbxNode.mk i c nm ps ch)
            (InstanceSnapshot.mk c' nm' ps' cB))) i (c, ps) = (c', ps') := by
          rw [hus, fieldsAfter_append]
          have houter : ∀ cp, fieldsAfter
              (updatesOf (((ch.take cB.length).zip cB).bind fun ob => diffSome ob.1 ob.2))
              i cp = cp := by
            intro cp
            apply fieldsAfter_noop
            intro u hu he
            exact hiNotin (he ▸ hTsub u.1 (hZu u hu))
          rw [houter]
          by_cases hcc : c ≠ c' ∨ ps ≠ ps'
          · rw [if_pos hcc]
            simp [fieldsAfter]
          · rw [if_neg hcc]
            push_neg at hcc
            rw [hcc.1, hcc.2]
            rfl
        have hXsub : ∀ j, j ∈ nodeIdsList
            (remFoldL (removesOf (((ch.take cB.length).zip cB).bind
              fun ob => diffSome ob.1 ob.2)) (ch.take cB.length)) →
            j ∈ nodeIdsList (ch.take cB.length) :=
          fun j hj => remFoldL_ids_subset _ _ j hj
        have hchupd : updFoldL (updatesOf (diffSome (RbxNode.mk i c nm ps ch)
            (InstanceSnapshot.mk c' nm' ps' cB)))
            (remFoldL (removesOf (((ch.take cB.length).zip cB).bind
              fun ob => diffSome ob.1 ob.2)) (ch.take cB.length)) =
            updFoldL (updatesOf (((ch.take cB.length).zip cB).bind
              fun ob => diffSome ob.1 ob.2))
            (remFoldL (removesOf (((ch.take cB.length).zip cB).bind
              fun ob => diffSome ob.1 ob.2)) (ch.take cB.length)) := by
          rw [hus, updFoldL_append_targets]
          congr 1
          by_cases hcc : c ≠ c' ∨ ps ≠ ps'
          · rw [if_pos hcc]
            apply updFoldL_noop
            intro u hu hmem
            simp only [List.mem_singleton] at hu
            rw [hu] at hmem
            exact hiNotin (hTsub i (hXsub i hmem))
          · rw [if_neg hcc]
            rfl
        have hupd : updFold (updatesOf (diffSome (RbxNode.mk i c nm ps ch)
            (InstanceSnapshot.mk c' nm' ps' cB)))
            (some (RbxNode.mk i c nm ps
              (remFoldL (removesOf (((ch.take cB.length).zip cB).bind
                fun ob => diffSome ob.1 ob.2)) (ch.take cB.length)))) =
            some (RbxNode.mk i c' nm ps'
              (updFoldL (updatesOf (((ch.take cB.length).zip cB).bind
                fun ob => diffSome ob.1 ob.2))
                (remFoldL (removesOf (((ch.take cB.length).zip cB).bind
                  fun ob => diffSome ob.1 ob.2)) (ch.take cB.length)))) := by
          rw [updFold_some, updFoldN_node, hfield, hchupd]
        have hadd : addFold (addsOf (diffSome (RbxNode.mk i c nm ps ch)
            (InstanceSnapshot.mk c' nm' ps' cB)))
            (some (RbxNode.mk i c' nm ps'
              (updFoldL (updatesOf (((ch.take cB.length).zip cB).bind
                fun ob => diffSome ob.1 ob.2))
                (remFoldL (removesOf (((ch.take cB.length).zip cB).bind
                  fun ob => diffSome ob.1 ob.2)) (ch.take cB.length)))), k) =
            (some (RbxNode.mk i c' nm ps' l'), k₁) := by
          rw [addFold_some, addFoldN_node, has]
          have h1 : addFoldCh i
              (addsOf (((ch.take cB.length).zip cB).bind fun ob => diffSome ob.1 ob.2))
              (updFoldL (updatesOf (((ch.take cB.length).zip cB).bind
                fun ob => diffSome ob.1 ob.2))
                (remFoldL (removesOf (((ch.take cB.length).zip cB).bind
                  fun ob => diffSome ob.1 ob.2)) (ch.take cB.length)), k)
              = (l', k₁) := by
            rw [addFoldCh_noself]
            · exact hEqL
            · intro a ha he
              exact hiNotin (he ▸ hTsub a.1 (hZa a ha))
          rw [h1]
        refine ⟨RbxNode.mk i c' nm ps' l', k₁, ?_, ?_, ?_, ?_⟩
        · show addFold _ (updFold _ (remFold _ (some _)), k) = _
          rw [hrem, hupd, hadd]
        · rw [stripNode, hStripL, hnm]
        · exact hMonoL
        · intro j hj
          rw [nodeIds] at hj
          rcases List.mem_cons.mp hj with h1 | h2
          · exact Or.inl (by rw [h1, nodeIds]; simp)
          · rcases hIdsL j h2 with h3 | h4
            · exact Or.inl (by rw [nodeIds]; exact List.mem_cons.mpr (Or.inr (hTsub j h3)))
            · exact Or.inr h4

theorem updFold_none (us : List (RbxId × String × List (String × String))) :
    updFold us none = none := by
  induction us with
  | nil => rfl
  | cons u us ih => exact ih

theorem addFold_none_fst (as' : List (RbxId × InstanceSnapshot)) :
    ∀ k, (addFold as' (none, k)).1 = none := by
  induction as' with
  | nil => intro k; rfl
  | cons a as ih => intro k; exact ih _

theorem remFold_some_ids_subset (rs : List RbxId) :
    ∀ (x y : RbxNode), remFold rs (some x) = some y →
    ∀ j, j ∈ nodeIds y → j ∈ nodeIds x := by
  induction rs with
  | nil =>
    intro x y h j hj
    rw [show y = x from (Option.some.inj h).symm] at hj
    exact hj
  | cons id rs ih =>
    intro x y h j hj
    have hstep : remFold (id :: rs) (some x) = remFold rs (removeNode id x) := rfl
    rw [hstep] at h
    cases hrx : removeNode id x with
    | none =>
      rw [hrx, remFold_none] at h
      exact absurd h (by simp)
    | some x1 =>
      rw [hrx] at h
      exact removeNode_ids_subset x id x1 hrx j (ih x1 y h j hj)

theorem remFold_kills (rs : List RbxId) :
    ∀ (x : RbxNode) (rid : RbxId), rid ∈ rs →
    ∀ y, remFold rs (some x) = some y → rid ∉ nodeIds y := by
  induction rs with
  | nil => intro x rid h; exact absurd h (by simp)
  | cons id rs ih =>
    intro x rid hmem y h
    have hstep : remFold (id :: rs) (some x) = remFold rs (removeNode id x) := rfl
    rw [hstep] at h
    cases hrx : removeNode id x with
    | none =>
      rw [hrx, remFold_none] at h
      exact absurd h (by simp)
    | some x1 =>
      rw [hrx] at h
      rcases List.mem_cons.mp hmem with h1 | h2
      · rw [h1]
        intro hy
        exact removeNode_not_mem x id x1 hrx (remFold_some_ids_subset rs x1 y h id hy)
      · exact ih x1 rid h2 y h

theorem diffSome_refs (r : RbxNode) (B : InstanceSnapshot) :
    ∀ op, op ∈ diffSome r B → op.refId ∈ nodeIds r := by
  intro op hop
  obtain ⟨h1, h2, h3⟩ := diffSome_targets r B
  cases op with
  | add pid s =>
    have hm : (pid, s) ∈ addsOf (diffSome r B) := by
      rw [addsOf]
      exact List.mem_filterMap.mpr ⟨_, hop, rfl⟩
    exact h3 _ hm
  | update id cc pps =>
    have hm : (id, cc, pps) ∈ updatesOf (diffSome r B) := by
      rw [updatesOf]
      exact List.mem_filterMap.mpr ⟨_, hop, rfl⟩
    exact h2 _ hm
  | remove id =>
    have hm : id ∈ removesOf (diffSome r B) := by
      rw [removesOf]
      exact List.mem_filterMap.mpr ⟨_, hop, rfl⟩
    have := h1 id hm
    cases r with
    | mk i c n ps ch =>
      rw [nodeIds]
      simp only [RbxNode.children] at this
      exact List.mem_cons.mpr (Or.inr this)

/-- Counterexample to C1 as stated: the diff never compares instance names,
so for two single-instance snapshots that differ only in their name the diff
is empty, the patch applies successfully, and the resulting tree still
denotes the old snapshot, not the new one. -/
theorem c1_counterexample_name_change :
    diff 0 (some (RbxNode.mk 0 "Folder" "Old" [] []))
        (some (InstanceSnapshot.mk "Folder" "New" [] [])) = [] ∧
    applyPatch ⟨some (RbxNode.mk 0 "Folder" "Old" [] []), 1⟩
        (diff 0 (some (RbxNode.mk 0 "Folder" "Old" [] []))
          (some (InstanceSnapshot.mk "Folder" "New" [] []))) =
      Except.ok ⟨some (RbxNode.mk 0 "Folder" "Old" [] []), 1⟩ ∧
    stripNode (RbxNode.mk 0 "Folder" "Old" [] []) ≠
      InstanceSnapshot.mk "Folder" "New" [] [] := by
  refine ⟨by decide, by decide, by decide⟩

/-- C1 (amended): the diff/apply round-trip law holds up to instance names —
for a live tree whose ids are distinct and below the fresh-id counter, and a
target snapshot whose positionally matched nodes carry the same names as the
live nodes (names are never compared or rewritten by the diff), applying
`diff(live, target)` to the tree succeeds and yields a tree structurally
equal to the target. -/
theorem c1_diff_apply_roundtrip (r : RbxNode) (B : InstanceSnapshot)
    (k : Nat) (pid : RbxId)
    (hnd : (nodeIds r).Nodup) (hbd : ∀ j, j ∈ nodeIds r → j < k)
    (hal : alignNode r B = true) :
    ∃ t' : RbxTree,
      applyPatch ⟨some r, k⟩ (diff pid (some r) (some B)) = Except.ok t' ∧
      t'.root.map stripNode = some B := by
  have hdiff : diff pid (some r) (some B) = diffSome r B := rfl
  obtain ⟨r', k', hEq, hStrip, _, _⟩ := roundtripNode r B k hnd hbd hal
  have hall : (diffSome r B).all
      (fun op => (RbxTree.mk (some r) k).containsId op.refId) = true := by
    rw [List.all_eq_true]
    intro op hop
    show RbxTree.containsId _ _ = true
    rw [RbxTree.containsId]
    exact decide_eq_true (diffSome_refs r B op hop)
  refine ⟨RbxTree.mk (some r') k', ?_, ?_⟩
  · rw [hdiff, applyPatch, if_pos hall, applyOps_pipeline]
    show Except.ok (RbxTree.mk (pipeline (diffSome r B) (some r) k).1
      (pipeline (diffSome r B) (some r) k).2) = _
    rw [hEq]
  · show (some r').map stripNode = some B
    rw [Option.map_some', hStrip]

/-- Witness for the amended C1 at a concrete input: a one-node `Folder`
named "X" diffed against a `Model` named "X" with a new property and a new
child; the patch applies and the tree then denotes the target snapshot. -/
theorem c1_diff_apply_roundtrip_witness :
    ∃ t' : RbxTree,
      applyPatch ⟨some (RbxNode.mk 0 "Folder" "X" [] []), 1⟩
        (diff 7 (some (RbxNode.mk 0 "Folder" "X" [] []))
          (some (InstanceSnapshot.mk "Model" "X" [("a", "1")]
            [InstanceSnapshot.mk "Part" "P" [] []]))) = Except.ok t' ∧
      t'.root.map stripNode = some (InstanceSnapshot.mk "Model" "X" [("a", "1")]
        [InstanceSnapshot.mk "Part" "P" [] []]) :=
  c1_diff_apply_roundtrip (RbxNode.mk 0 "Folder" "X" [] [])
    (InstanceSnapshot.mk "Model" "X" [("a", "1")] [InstanceSnapshot.mk "Part" "P" [] []])
    1 7 (by decide)
    (by
      intro j hj
      rw [show nodeIds (RbxNode.mk 0 "Folder" "X" [] []) = [0] from rfl] at hj
      simp only [List.mem_singleton] at hj
      subst hj
      decide)
    (by decide)

/-- Counterexample to C2 as stated: a patch computed by `diff` against a
tree — here the empty patch `diff(A, A)` — applies successfully a second
time as well; the claimed "second application fails with `StaleTarget`" does
not hold for every patch. -/
theorem c2_counterexample_double_apply :
    diff 0 (some (RbxNode.mk 0 "Folder" "X" [] []))
        (some (stripNode (RbxNode.mk 0 "Folder" "X" [] []))) = [] ∧
    applyPatch ⟨some (RbxNode.mk 0 "Folder" "X" [] []), 1⟩ [] =
      Except.ok ⟨some (RbxNode.mk 0 "Folder" "X" [] []), 1⟩ ∧
    applyPatch ⟨some (RbxNode.mk 0 "Folder" "X" [] []), 1⟩ [] =
      Except.ok ⟨some (RbxNode.mk 0 "Folder" "X" [] []), 1⟩ := by
  refine ⟨by decide, by decide, by decide⟩

/-- C2 (amended): patch application is atomic — if any id referenced by the
patch is missing from the tree, the whole patch is rejected with
`StaleTarget` and no updated tree is produced.  The "applying the same patch
twice fails the second time" consequence holds exactly for patches
containing a `Remove` operation: after a successful first application of
such a patch (to a tree whose ids sit below the fresh-id counter), the
removed id is gone, so the second application fails with `StaleTarget`.
Patches without a `Remove` (such as the empty patch) can re-apply. -/
theorem c2_apply_stale_target :
    (∀ (t : RbxTree) (p : List PatchOp),
      (∃ op, op ∈ p ∧ t.containsId op.refId = false) →
      applyPatch t p = Except.error ApplyError.staleTarget) ∧
    (∀ (t : RbxTree) (p : List PatchOp) (rid : RbxId),
      PatchOp.remove rid ∈ p →
      (∀ op, op ∈ p → t.containsId op.refId = true) →
      (∀ (r : RbxNode), t.root = some r → ∀ j, j ∈ nodeIds r → j < t.nextId) →
      ∃ t', applyPatch t p = Except.ok t' ∧
        applyPatch t' p = Except.error ApplyError.staleTarget) := by
  constructor
  · intro t p hex
    obtain ⟨op, hop, hfalse⟩ := hex
    rw [applyPatch, if_neg]
    intro hall
    rw [List.all_eq_true] at hall
    rw [hall op hop] at hfalse
    exact absurd hfalse (by simp)
  · intro t p rid hrem hcont hbound
    have hall : p.all (fun op => t.containsId op.refId) = true := by
      rw [List.all_eq_true]; exact hcont
    have hcr : t.containsId rid = true := hcont _ hrem
    cases htr : t.root with
    | none =>
      rw [RbxTree.containsId, htr] at hcr
      exact absurd hcr (by simp)
    | some r =>
      have hridr : rid ∈ nodeIds r := by
        rw [RbxTree.containsId, htr] at hcr
        exact of_decide_eq_true hcr
      have hridm : rid ∈ removesOf p := by
        rw [removesOf]
        exact List.mem_filterMap.mpr ⟨_, hrem, rfl⟩
      refine ⟨applyOps t p, ?_, ?_⟩
      · rw [applyPatch, if_pos hall]
      · have hroot : (applyOps t p).root =
            (pipeline p t.root t.nextId).1 := by rw [applyOps_pipeline]
        have hnc : (applyOps t p).containsId rid = false := by
          rw [RbxTree.containsId, hroot]
          show (match (pipeline p t.root t.nextId).1 with
            | some root => decide (rid ∈ nodeIds root) | none => false) = false
          rw [htr]
          cases hrf : remFold (removesOf p) (some r) with
          | none =>
            show (match (addFold (addsOf p)
                (updFold (updatesOf p) (remFold (removesOf p) (some r)), t.nextId)).1 with
              | some root => decide (rid ∈ nodeIds root) | none => false) = false
            rw [hrf, updFold_none, addFold_none_fst]
          | some y =>
            have hkill : rid ∉ nodeIds y := remFold_kills (removesOf p) r rid hridm y hrf
            show (match (addFold (addsOf p)
                (updFold (updatesOf p) (remFold (removesOf p) (some r)), t.nextId)).1 with
              | some root => decide (rid ∈ nodeIds root) | none => false) = false
            rw [hrf, updFold_some, addFold_some]
            simp only []
            rw [decide_eq_false]
            intro hmem
            obtain ⟨_, hsub⟩ := addFoldN_facts (addsOf p) (updFoldN (updatesOf p) y) t.nextId
            rcases hsub rid hmem with h1 | h2
            · rw [updFoldN_ids] at h1
              exact hkill h1
            · exact absurd (hbound r htr rid hridr) (Nat.not_lt_of_le h2.1)
        rw [applyPatch, if_neg]
        intro hall2
        rw [List.all_eq_true] at hall2
        have h9 := hall2 _ hrem
        simp only [PatchOp.refId] at h9
        rw [h9] at hnc
        exact absurd hnc (by simp)

/-- Witness for the amended C2 at concrete inputs: a patch referencing a
missing id is rejected with `StaleTarget`; a patch that removes the child of
a two-node tree applies once and fails with `StaleTarget` the second time. -/
theorem c2_apply_stale_target_witness :
    applyPatch ⟨some (RbxNode.mk 0 "Folder" "X" [] []), 1⟩ [PatchOp.remove 5] =
      Except.error ApplyError.staleTarget ∧
    ∃ t', applyPatch ⟨some (RbxNode.mk 0 "Folder" "X" []
        [RbxNode.mk 1 "Script" "S" [] []]), 2⟩ [PatchOp.remove 1] = Except.ok t' ∧
      applyPatch t' [PatchOp.remove 1] = Except.error ApplyError.staleTarget := by
  constructor
  · exact c2_apply_stale_target.1 _ _ ⟨PatchOp.remove 5, by decide, by decide⟩
  · exact c2_apply_stale_target.2 _ _ 1 (by decide) (by decide)
      (by
        intro r hr j hj
        rw [Option.some.injEq] at hr
        rw [← hr] at hj
        rw [show nodeIds (RbxNode.mk 0 "Folder" "X" []
          [RbxNode.mk 1 "Script" "S" [] []]) = [0, 1] from rfl] at hj
        simp only [List.mem_cons, List.not_mem_nil, or_false] at hj
        rcases hj with h | h <;> (subst h; decide))
